import Mathlib

/-!
Verification development for the stscan trace-analysis core:
a shallow embedding of the JSONL trace ingestor / index builder
(`workers/traceParser.ts`) and of the index merge / visibility /
ordering layer (`src/lib/traceIndex.ts`), together with theorems
settling the stated properties of those components.
-/

namespace StScan

/-- `kind` of a tree node: `file | dir | symlink` (types/trace.ts). -/
inductive Kind where
  | file
  | dir
  | symlink
deriving DecidableEq, Repr

/-- `NodeStatus` : `included | ignored | skipped | unknown` (types/trace.ts). -/
inductive Status where
  | unknown
  | included
  | ignored
  | skipped
deriving DecidableEq, Repr

/-- The `event` tag of a trace event (types/trace.ts, field `event`). -/
inductive EvTag where
  | enter
  | skip
  | incl
  | ignore
  | temp
  | normalize
  | error
  | summary
deriving DecidableEq, Repr

/-- A typed JSONL trace event (types/trace.ts, `TraceEvent` union).
Fields that no modelled code path reads (`canSkipDir`, `tempExpired`,
`normalizedPath`, `autoNormalize`, `message`, the `summary` payload
lists) are elided. `incl` embeds the `include` event (`include` is a
Lean keyword). -/
inductive TraceEvent where
  | enter (path : String)
  | skip (path : String) (reason : String) (pat : Option String)
  | incl (path : String) (kind : Kind)
  | ignore (path : String) (reason : String) (pat : Option String)
  | temp (path : String)
  | normalize (path : String)
  | error (path : String)
  | summary
deriving DecidableEq, Repr

/-- The `event` tag of a `TraceEvent`. -/
def TraceEvent.tag : TraceEvent → EvTag
  | .enter _ => .enter
  | .skip _ _ _ => .skip
  | .incl _ _ => .incl
  | .ignore _ _ _ => .ignore
  | .temp _ => .temp
  | .normalize _ => .normalize
  | .error _ => .error
  | .summary => .summary

/-- The raw `path` field of an event (`""` for `summary`, which carries none;
the value is never consulted because `summary` events are discarded first). -/
def TraceEvent.path : TraceEvent → String
  | .enter p => p
  | .skip p _ _ => p
  | .incl p _ => p
  | .ignore p _ _ => p
  | .temp p => p
  | .normalize p => p
  | .error p => p
  | .summary => ""

/-- `NodeMeta` (types/trace.ts). `statusB/reasonB/patternB` are only set by
the merge; the builder leaves them unset. -/
structure NodeMeta where
  status : Status
  reason : Option String := none
  pat : Option String := none
  kind : Option Kind := none
  lastEvent : Option EvTag := none
  statusB : Option Status := none
  reasonB : Option String := none
  patternB : Option String := none
deriving DecidableEq, Repr

/-- `TreeNode` (types/trace.ts). The optional `children` field is modelled as
a plain list; everywhere the source reads it, `undefined` behaves as `[]`
(`node.children ?? []`, `if (!parent.children) parent.children = []`). -/
structure TreeNode where
  id : String
  name : String
  path : String
  kind : Kind
  meta : NodeMeta
  children : List String := []
deriving DecidableEq, Repr

/-- Running event counts `{included, ignored, skipped}`. -/
structure Counts where
  included : Nat := 0
  ignored : Nat := 0
  skipped : Nat := 0
deriving DecidableEq, Repr

/-- The path-keyed node map `Record<string, TreeNode>`, modelled as an
insertion-ordered association list (matching JS object key order). -/
abbrev NodeMap := List (String × TreeNode)

/-- A built index (`SerializedIndex` / `TraceIndex`). -/
structure TraceIndex where
  rootId : String
  nodes : NodeMap
  counts : Counts

/-- Lookup in the node map (`nodes[path]` / `nodes.get(path)`). -/
def lookupN : NodeMap → String → Option TreeNode
  | [], _ => none
  | p :: rest, k => if p.1 = k then some p.2 else lookupN rest k

/-- Assignment `nodes[path] = v` on the association list: overwrite in place
when the key is present, append otherwise (JS object insertion-order
semantics; keys are unique in any map the code builds). -/
def setN : NodeMap → String → TreeNode → NodeMap
  | [], k, v => [(k, v)]
  | p :: rest, k, v => if p.1 = k then (k, v) :: rest else p :: setN rest k v

/-- The reserved root sentinel `ROOT_ID = "."`. -/
def ROOT_ID : String := "."

/-- Index of the last `/` in a character list (`path.lastIndexOf("/")`),
`none` when absent. -/
def lastSlash : List Char → Option Nat
  | [] => none
  | c :: rest =>
    match lastSlash rest with
    | some i => some (i + 1)
    | none => if c = '/' then some 0 else none

/-- `toParentPath` (traceParser worker): `""` for the root, the root sentinel
when the path has no `/`, else everything before the last `/` (or the root
sentinel when that prefix is empty). -/
def toParentPath (path : String) : String :=
  if path = ROOT_ID then ""
  else
    match lastSlash path.toList with
    | none => ROOT_ID
    | some idx =>
      let p := String.mk (path.toList.take idx)
      if p = "" then ROOT_ID else p

/-- `path.split("/")` over the character list (JS split semantics: an empty
string yields `[""]`, a trailing separator yields a final `""`). -/
def splitSlash : List Char → List (List Char)
  | [] => [[]]
  | x :: xs =>
    let r := splitSlash xs
    if x = '/' then [] :: r
    else
      match r with
      | h :: t => (x :: h) :: t
      | [] => [[x]]

/-- The node `name` computed at creation: the root sentinel for the root,
else `path.split("/").pop() || path`. -/
def nodeName (path : String) : String :=
  if path = ROOT_ID then ROOT_ID
  else
    match (splitSlash path.toList).getLast? with
    | some s => if s = [] then path else String.mk s
    | none => path

/-- A freshly created node (`ensureNode`, creation branch). -/
def freshNode (path : String) (kind : Kind) : TreeNode :=
  { id := path
    name := nodeName path
    path := path
    kind := kind
    meta := { status := .unknown }
    children := [] }

/-- `ensureNode` (traceParser worker): create the node when absent; when
present and a `dir` kind is requested, upgrade `kind` to `dir` (no other
mutation). -/
def ensureNode (m : NodeMap) (path : String) (kind : Kind) : NodeMap :=
  match lookupN m path with
  | some n =>
    if kind = .dir ∧ n.kind ≠ .dir then setN m path { n with kind := .dir } else m
  | none => setN m path (freshNode path kind)

/-- `linkParent` (traceParser worker): ensure the immediate parent exists as a
`dir` and append the child id to its `children` unless already present.
No-op for the root (empty parent path). -/
def linkParent (m : NodeMap) (childPath : String) : NodeMap :=
  let parentPath := toParentPath childPath
  if parentPath = "" then m
  else
    let m1 := ensureNode m parentPath .dir
    match lookupN m1 parentPath with
    | some parent =>
      setN m1 parentPath
        { parent with
          children :=
            if childPath ∈ parent.children then parent.children
            else parent.children ++ [childPath] }
    | none => m1

/-- `normalizePath` (traceParser worker): empty or `"."` maps to the root
sentinel; one leading `"./"` is stripped (`replace(/^\.\//, "")`), written
over the character list so it evaluates by kernel reduction. -/
def normalizePath (raw : String) : String :=
  if raw = "" then ROOT_ID
  else if raw = "." then ROOT_ID
  else
    match raw.toList with
    | '.' :: '/' :: rest => String.mk rest
    | _ => raw

/-- `updateMeta` (traceParser worker): record `lastEvent`, then dispatch on
the event tag exactly as the `switch`. -/
def updateMeta (node : TreeNode) (e : TraceEvent) : TreeNode :=
  let node := { node with meta := { node.meta with lastEvent := some e.tag } }
  match e with
  | .incl _ k =>
    { node with
      meta := { node.meta with status := .included, kind := some k, reason := none, pat := none } }
  | .ignore _ r p =>
    { node with meta := { node.meta with status := .ignored, reason := some r, pat := p } }
  | .skip _ r p =>
    { node with meta := { node.meta with status := .skipped, reason := some r, pat := p } }
  | .temp _ =>
    if node.meta.status = .unknown then
      { node with meta := { node.meta with status := .ignored, reason := some "temporary" } }
    else node
  | .error _ =>
    { node with meta := { node.meta with status := .ignored, reason := some "error", pat := none } }
  | .enter _ =>
    if node.kind ≠ .dir then { node with kind := .dir } else node
  | _ => node

/-- The kind inferred for an event path before `ensureNode`: an `include`
carries its kind, `enter`/`skip` imply `dir`, everything else `file`. -/
def inferKind : TraceEvent → Kind
  | .incl _ k => k
  | .enter _ => .dir
  | .skip _ _ _ => .dir
  | _ => .file

/-- One event application to the node map: the per-event body of the
`parseJSONL` loop (discard `summary`, normalize the path, skip an empty
normalized path, then `ensureNode` / `linkParent` / `updateMeta`). -/
def applyEvent (m : NodeMap) (e : TraceEvent) : NodeMap :=
  if e.tag = .summary then m
  else
    let path := normalizePath e.path
    if path = "" then m
    else
      let kind := inferKind e
      let m1 := ensureNode m path kind
      let m2 := linkParent m1 path
      match lookupN m2 path with
      | some n => setN m2 path (updateMeta n e)
      | none => m2

/-- The per-event count update of the `parseJSONL` loop (skipping `summary`
events and empty normalized paths exactly as the loop does). -/
def countEvent (c : Counts) (e : TraceEvent) : Counts :=
  if e.tag = .summary then c
  else if normalizePath e.path = "" then c
  else
    match e.tag with
    | .incl => { c with included := c.included + 1 }
    | .ignore | .temp | .error => { c with ignored := c.ignored + 1 }
    | .skip => { c with skipped := c.skipped + 1 }
    | _ => c

/-- The initial node map: the pre-seeded root (`ensureNode(nodes, ROOT_ID, "dir")`). -/
def initNodes : NodeMap := [(ROOT_ID, freshNode ROOT_ID .dir)]

/-- The node map built by ingesting a typed event list. -/
def buildNodes (events : List TraceEvent) : NodeMap :=
  events.foldl applyEvent initNodes

/-- The running counts accumulated over a typed event list. -/
def buildCounts (events : List TraceEvent) : Counts :=
  events.foldl countEvent {}

/-- The state accumulated by the `parseJSONL` line loop: the node map, the
running counts, and the line numbers of the posted decode errors. -/
structure ParsedSt where
  nodes : NodeMap
  counts : Counts
  errors : List Nat
deriving DecidableEq, Repr

/-- One iteration of the `parseJSONL` line loop at 0-based line index `i`:
trim, skip blank lines, decode (`JSON.parse`, abstracted as the `decode`
parameter), record a line-numbered decode error and skip on failure, else
apply the event to the map and counts. -/
def processLine (decode : String → Option TraceEvent) (st : ParsedSt) (i : Nat)
    (rawLine : String) : ParsedSt :=
  let line := rawLine.trim
  if line = "" then st
  else
    match decode line with
    | none => { st with errors := st.errors ++ [i + 1] }
    | some e =>
      { st with nodes := applyEvent st.nodes e, counts := countEvent st.counts e }

/-- The `parseJSONL` line loop from line index `i`. -/
def parseLines (decode : String → Option TraceEvent) :
    ParsedSt → Nat → List String → ParsedSt
  | st, _, [] => st
  | st, i, l :: ls => parseLines decode (processLine decode st i l) (i + 1) ls

/-- `parseJSONL` (traceParser worker) over the split line list: seed the root,
then run the line loop. The JSON decoder is abstracted as `decode`. -/
def parseJSONL (decode : String → Option TraceEvent) (lines : List String) : ParsedSt :=
  parseLines decode { nodes := initNodes, counts := {}, errors := [] } 0 lines

/-- First-occurrence deduplication, i.e. JS `Set` insertion-order semantics. -/
def firstOccur (l : List String) : List String :=
  l.foldl (fun acc k => if k ∈ acc then acc else acc ++ [k]) []

/-- The keys of the node map, in insertion order. -/
def keysN (m : NodeMap) : List String := m.map (·.1)

/-- `mergeIndexes` (traceIndex.ts): for every key of either side, build the
composite node from `base = nodeA || nodeB` with A's values in the primary
meta slot, B's values in the `B` slot, `base`'s children, and element-wise
summed counts. The root id is taken from A; no root-sentinel check exists. -/
def mergeIndexes (a b : TraceIndex) : TraceIndex :=
  let allKeys := firstOccur (keysN a.nodes ++ keysN b.nodes)
  let nodes : NodeMap := allKeys.filterMap (fun key =>
    let nodeA := lookupN a.nodes key
    let nodeB := lookupN b.nodes key
    match nodeA.or nodeB with
    | none => none
    | some base =>
      some (key,
        { base with
          meta :=
            { status := match nodeA with | some na => na.meta.status | none => .unknown
              reason := nodeA.bind (·.meta.reason)
              pat := nodeA.bind (·.meta.pat)
              kind := some base.kind
              lastEvent := nodeA.bind (·.meta.lastEvent)
              statusB := some (match nodeB with | some nb => nb.meta.status | none => .unknown)
              reasonB := nodeB.bind (·.meta.reason)
              patternB := nodeB.bind (·.meta.pat) }
          children := base.children }))
  { rootId := a.rootId
    nodes := nodes
    counts :=
      { included := a.counts.included + b.counts.included
        ignored := a.counts.ignored + b.counts.ignored
        skipped := a.counts.skipped + b.counts.skipped } }

/-- `hasVisibleStatus` (traceIndex.ts): only `included` is self-visible. -/
def hasVisibleStatus (s : Status) : Bool := s == .included

/-- Per-node subtree statistics (traceIndex.ts `SubtreeStats`). -/
structure SubtreeStats where
  totalNodes : Nat
  totalFiles : Nat
  totalDirs : Nat
  ignored : Nat
  skipped : Nat
deriving DecidableEq, Repr

/-- The memoized stats map handed to `buildVisibleList`/`orderChildren`. -/
abbrev StatsMap := List (String × SubtreeStats)

/-- Lookup in the stats map (`stats.get(id)`). -/
def lookupS : StatsMap → String → Option SubtreeStats
  | [], _ => none
  | p :: rest, k => if p.1 = k then some p.2 else lookupS rest k

/-- One row of the flattened visible list (`VisibleNode`). -/
structure VisibleRow where
  node : TreeNode
  depth : Nat
  hasChildren : Bool
  isExpanded : Bool
  dimmed : Bool
deriving DecidableEq, Repr

/-- The ordering strategy. -/
inductive OrderBy where
  | scan
  | alpha
  | cost
deriving DecidableEq, Repr

/-- The cost metric used by the `cost` strategy. -/
inductive CostMetric where
  | total
  | ignored
deriving DecidableEq, Repr

/-- Modelled from the spec: JS `String.prototype.toLowerCase` (an external
platform builtin), modelled as ASCII case folding of one character. -/
def lowerChar (c : Char) : Char :=
  if 65 ≤ c.toNat ∧ c.toNat ≤ 90 then Char.ofNat (c.toNat + 32) else c

/-- ASCII-modelled lowercasing of a string. -/
def lowerStr (s : String) : String := String.mk (s.toList.map lowerChar)

/-- Modelled from the spec: JS `String.prototype.trim` whitespace test,
modelled over the common ASCII whitespace characters. -/
def isJsWS (c : Char) : Bool := c = ' ' || c = '\t' || c = '\n' || c = '\r'

/-- Modelled from the spec: JS `String.prototype.trim`. -/
def trimStr (s : String) : String :=
  String.mk (((s.toList.dropWhile isJsWS).reverse.dropWhile isJsWS).reverse)

/-- The normalized search query: `search.trim().toLowerCase()`. -/
def queryOf (search : String) : String := lowerStr (trimStr search)

/-- `matchesSearch`: with an active query, case-insensitive substring match
against the node's `path` (`node.path.toLowerCase().includes(query)`). -/
def matchesSearch (query : String) (n : TreeNode) : Bool :=
  if query = "" then true
  else decide (query.toList <:+: (lowerStr n.path).toList)

/-- `shouldIncludeNode`: self-visibility — `showExcluded`, or either side's
status is `included`. -/
def shouldIncludeNode (showExcluded : Bool) (n : TreeNode) : Bool :=
  if showExcluded then true
  else
    hasVisibleStatus n.meta.status ||
      (match n.meta.statusB with | some sB => hasVisibleStatus sB | none => false)

/-- `computeVisible` (traceIndex.ts), with a fuel parameter in place of the
memoized recursion (the memo cache is a pure-function cache): with a query,
a node renders iff it matches or some child renders; otherwise iff it is
self-visible or some child renders. -/
def computeVisible (m : NodeMap) (query : String) (showExcluded : Bool) :
    Nat → TreeNode → Bool
  | 0, _ => false
  | fuel + 1, n =>
    let searchMatch := matchesSearch query n
    let childVisible := n.children.any (fun cid =>
      match lookupN m cid with
      | some c => computeVisible m query showExcluded fuel c
      | none => false)
    if query ≠ "" then searchMatch || childVisible
    else shouldIncludeNode showExcluded n || childVisible

/-- Modelled from the spec: `String.prototype.localeCompare` is an external
platform collation which the spec characterizes as case-insensitive locale
comparison; it is modelled as lexicographic comparison of the lowercased
strings, with the raw strings as a deterministic tie-break. -/
def localeCompare (a b : String) : Int :=
  if (lowerStr a).toList < (lowerStr b).toList then -1
  else if (lowerStr b).toList < (lowerStr a).toList then 1
  else if a.toList < b.toList then -1
  else if b.toList < a.toList then 1
  else 0

/-- The `isDir` test of the `orderChildren` partition loop: dangling child id,
`kind === "dir"`, `status === "skipped"`, or at least one child of its own. -/
def isDirLike (m : NodeMap) (childId : String) : Bool :=
  match lookupN m childId with
  | none => true
  | some child =>
    child.kind == .dir || child.meta.status == .skipped || decide (0 < child.children.length)

/-- `compareAlpha` (inside `orderChildren`): compare node names (falling back
to the raw id for a dangling child) with `localeCompare`. -/
def compareAlpha (m : NodeMap) (a b : String) : Int :=
  let nameA := match lookupN m a with | some n => n.name | none => a
  let nameB := match lookupN m b with | some n => n.name | none => b
  localeCompare nameA nameB

/-- The cost of a child id under the selected metric (`0` for a missing stats
entry). -/
def costOf (stats : StatsMap) (metric : CostMetric) (cid : String) : Nat :=
  match lookupS stats cid with
  | some s => match metric with | .ignored => s.ignored | .total => s.totalNodes
  | none => 0

/-- `compareCost` (inside `orderChildren`): descending by cost, with
`compareAlpha` as the tie-break. -/
def compareCost (m : NodeMap) (stats : StatsMap) (metric : CostMetric)
    (a b : String) : Int :=
  let costA := costOf stats metric a
  let costB := costOf stats metric b
  if costA ≠ costB then (costB : Int) - (costA : Int) else compareAlpha m a b

/-- The partition loop of `orderChildren`: push each child id onto the `dirs`
or `files` accumulator. -/
def partitionChildren (m : NodeMap) (children : List String) : List String × List String :=
  children.foldl
    (fun acc cid =>
      if isDirLike m cid then (acc.1 ++ [cid], acc.2) else (acc.1, acc.2 ++ [cid]))
    ([], [])

/-- Stable insertion of one element into a sorted list: the element is placed
before the first entry it compares `le` to, so equal elements keep their
original relative order. -/
def insertLe {α : Type} (le : α → α → Bool) (x : α) : List α → List α
  | [] => [x]
  | y :: ys => if le x y then x :: y :: ys else y :: insertLe le x ys

/-- A stable sort by a boolean comparator-derived `le`, modelling JS
`Array.prototype.sort` (stable per ES2019). -/
def sortLe {α : Type} (le : α → α → Bool) (l : List α) : List α :=
  l.foldr (insertLe le) []

/-- `orderChildren` (traceIndex.ts): partition into dir-like then file-like;
`scan` keeps insertion order, `alpha`/`cost` stably sort each partition by
the respective comparator (JS `Array.prototype.sort` is stable). -/
def orderChildren (children : List String) (m : NodeMap) (orderBy : OrderBy)
    (stats : StatsMap) (metric : CostMetric) : List String :=
  let dirs := (partitionChildren m children).1
  let files := (partitionChildren m children).2
  match orderBy with
  | .scan => dirs ++ files
  | .alpha =>
    sortLe (fun a b => decide (compareAlpha m a b ≤ 0)) dirs ++
      sortLe (fun a b => decide (compareAlpha m a b ≤ 0)) files
  | .cost =>
    sortLe (fun a b => decide (compareCost m stats metric a b ≤ 0)) dirs ++
      sortLe (fun a b => decide (compareCost m stats metric a b ≤ 0)) files

/-- The `walk` recursion of `buildVisibleList`, with fuel in place of the
(well-founded in practice) recursion: prune an invisible node, emit one row,
and recurse into the ordered children only with an active query or when the
node is expanded. `vfuel` is the fuel handed to each visibility evaluation. -/
def walk (m : NodeMap) (expanded : List String) (showExcluded : Bool) (query : String)
    (orderBy : OrderBy) (stats : StatsMap) (metric : CostMetric) (vfuel : Nat) :
    Nat → TreeNode → Nat → List VisibleRow
  | 0, _, _ => []
  | fuel + 1, n, depth =>
    if computeVisible m query showExcluded vfuel n then
      { node := n
        depth := depth
        hasChildren := decide (0 < n.children.length)
        isExpanded := expanded.contains n.id
        dimmed := showExcluded && (n.meta.status == .ignored || n.meta.status == .skipped)
        : VisibleRow } ::
      (if query ≠ "" || expanded.contains n.id then
        (orderChildren n.children m orderBy stats metric).flatMap (fun cid =>
          match lookupN m cid with
          | some c => walk m expanded showExcluded query orderBy stats metric vfuel fuel c (depth + 1)
          | none => [])
      else [])
    else []

/-- `buildVisibleList` (traceIndex.ts): normalize the query and walk the
ordered children of the root (the root itself produces no row and its
children are always walked). -/
def buildVisibleList (idx : TraceIndex) (expanded : List String) (showExcluded : Bool)
    (search : String) (orderBy : OrderBy) (stats : StatsMap) (metric : CostMetric)
    (vfuel wfuel : Nat) : List VisibleRow :=
  match lookupN idx.nodes idx.rootId with
  | none => []
  | some root =>
    let query := queryOf search
    (orderChildren root.children idx.nodes orderBy stats metric).flatMap (fun cid =>
      match lookupN idx.nodes cid with
      | some c => walk idx.nodes expanded showExcluded query orderBy stats metric vfuel wfuel c 0
      | none => [])

/-- Modelled from the spec (the claimed counting rule): the number of events
whose application makes the node at the event's path transition *into* the
given status category during the pass. -/
def transitionsInto (cat : Status) (events : List TraceEvent) : Nat :=
  (events.foldl
    (fun acc e =>
      let m' := applyEvent acc.1 e
      let p := normalizePath e.path
      let before := match lookupN acc.1 p with | some n => n.meta.status | none => .unknown
      let after := match lookupN m' p with | some n => n.meta.status | none => .unknown
      (m', acc.2 + if after = cat ∧ before ≠ cat then 1 else 0))
    (initNodes, 0)).2

/-- Modelled from the spec: "the deduplicated union of both sides' children
lists" — A's children followed by B's, first occurrence kept. -/
def dedupUnion (a b : List String) : List String := firstOccur (a ++ b)

/-- Reachability between node ids via children links in a node map. -/
inductive Reaches (m : NodeMap) : String → String → Prop
  | refl (a : String) : Reaches m a a
  | step {a b c : String} {n : TreeNode} :
      Reaches m a b → lookupN m b = some n → c ∈ n.children → Reaches m a c

/-- A concrete chain of child-id lookups from node `a` down to node `z`: one
child id per intermediate element, each resolved through the node map. -/
inductive ChainTo (m : NodeMap) : TreeNode → List TreeNode → TreeNode → Prop
  | refl (a : TreeNode) : ChainTo m a [] a
  | step {a z : TreeNode} {bs : List TreeNode} (cid : String) (b : TreeNode) :
      cid ∈ a.children → lookupN m cid = some b → ChainTo m b bs z →
      ChainTo m a (b :: bs) z

/-- Modelled from the spec (the claimed row-emission rule): starting below the
always-assumed-emitted root, a visible node contributes its row, followed by
the rows of its ordered children when (and only when) a search is active or
the node is expanded; an invisible branch contributes nothing. -/
def specWalkRows (m : NodeMap) (expanded : List String) (showExcluded : Bool)
    (query : String) (orderBy : OrderBy) (stats : StatsMap) (metric : CostMetric)
    (vfuel : Nat) : Nat → TreeNode → Nat → List VisibleRow
  | 0, _, _ => []
  | fuel + 1, n, depth =>
    let selfRows : List VisibleRow :=
      if computeVisible m query showExcluded vfuel n then
        [{ node := n
           depth := depth
           hasChildren := decide (0 < n.children.length)
           isExpanded := expanded.contains n.id
           dimmed := showExcluded && (n.meta.status == .ignored || n.meta.status == .skipped) }]
      else []
    let childRows : List VisibleRow :=
      if computeVisible m query showExcluded vfuel n ∧ (query ≠ "" ∨ expanded.contains n.id) then
        (orderChildren n.children m orderBy stats metric).flatMap (fun cid =>
          match lookupN m cid with
          | some c =>
            specWalkRows m expanded showExcluded query orderBy stats metric vfuel fuel c (depth + 1)
          | none => [])
      else []
    selfRows ++ childRows

/-- Modelled from the spec: the whole row list of the claimed emission rule —
the root produces no row of its own and its ordered children are always
recursed into. -/
def specVisibleList (idx : TraceIndex) (expanded : List String) (showExcluded : Bool)
    (search : String) (orderBy : OrderBy) (stats : StatsMap) (metric : CostMetric)
    (vfuel wfuel : Nat) : List VisibleRow :=
  match lookupN idx.nodes idx.rootId with
  | none => []
  | some root =>
    (orderChildren root.children idx.nodes orderBy stats metric).flatMap (fun cid =>
      match lookupN idx.nodes cid with
      | some c =>
        specWalkRows idx.nodes expanded showExcluded (queryOf search) orderBy stats metric
          vfuel wfuel c 0
      | none => [])

/-! ### Per-path decomposition of the builder

Every event touches at most two map entries: the node at its normalized path
(`ensureNode` + `updateMeta`) and that path's immediate parent (`linkParent`).
`peff` is the projection of `applyEvent` onto one fixed path, and `mkFinal`
is a closed form for folding `peff` over an event list, used to prove replay
idempotence. -/

/-- The node `ensureNode` leaves at its path, as a function of the previous
entry: create when absent, upgrade to `dir` when requested. -/
def ensuredNode (x : Option TreeNode) (path : String) (kind : Kind) : TreeNode :=
  match x with
  | some n => if kind = .dir ∧ n.kind ≠ .dir then { n with kind := .dir } else n
  | none => freshNode path kind

/-- The per-path effect at the event's own path: `ensureNode` with the
inferred kind, then `updateMeta`. -/
def nodeEffect (q : String) (e : TraceEvent) (x : Option TreeNode) : Option TreeNode :=
  some (updateMeta (ensuredNode x q (inferKind e)) e)

/-- The per-path effect at the immediate parent of a linked child:
ensure-as-dir plus append-if-missing. -/
def linkEffect (q childPath : String) (x : Option TreeNode) : Option TreeNode :=
  let n0 := ensuredNode x q .dir
  some { n0 with
    children :=
      if childPath ∈ n0.children then n0.children else n0.children ++ [childPath] }

/-- The projection of one `applyEvent` step onto the single path `q`. -/
def peff (q : String) (e : TraceEvent) (x : Option TreeNode) : Option TreeNode :=
  if e.tag = .summary then x
  else
    let p := normalizePath e.path
    if p = "" then x
    else if p = q then nodeEffect q e x
    else if toParentPath p = q ∧ q ≠ "" then linkEffect q p x
    else x

/-- Whether an event applies a node effect at path `q`. -/
def touchesNode (q : String) (e : TraceEvent) : Bool :=
  e.tag != .summary && normalizePath e.path != "" && normalizePath e.path == q

/-- Whether an event applies a link effect at path `q`. -/
def touchesLink (q : String) (e : TraceEvent) : Bool :=
  e.tag != .summary && normalizePath e.path != "" && normalizePath e.path != q &&
    toParentPath (normalizePath e.path) == q && q != ""

/-- The node-kind contribution of an event to path `q`, if any. -/
def kindContrib (q : String) (e : TraceEvent) : Option Kind :=
  if touchesNode q e then some (inferKind e)
  else if touchesLink q e then some .dir
  else none

/-- A definitive status action at a path: the four event types that
unconditionally overwrite `status/reason/pattern`. -/
inductive DefAct where
  | inc (k : Kind)
  | ign (r : String) (p : Option String)
  | skp (r : String) (p : Option String)
  | err
deriving DecidableEq, Repr

/-- The definitive status action an event applies at path `q`, if any. -/
def defOf (q : String) (e : TraceEvent) : Option DefAct :=
  if touchesNode q e then
    match e with
    | .incl _ k => some (.inc k)
    | .ignore _ r p => some (.ign r p)
    | .skip _ r p => some (.skp r p)
    | .error _ => some .err
    | _ => none
  else none

/-- The last definitive status action at `q` in the list. -/
def lastDef (q : String) (L : List TraceEvent) : Option DefAct :=
  L.reverse.findSome? (defOf q)

/-- Whether any `temp` event hits path `q`. -/
def hasTemp (q : String) (L : List TraceEvent) : Bool :=
  L.any (fun e => touchesNode q e && e.tag == .temp)

/-- The carried kind an `include` event at `q` contributes to `meta.kind`. -/
def inclKindOf (q : String) (e : TraceEvent) : Option Kind :=
  if touchesNode q e then
    match e with
    | .incl _ k => some k
    | _ => none
  else none

/-- The carried kind of the last `include` event at `q`, if any. -/
def lastIncl (q : String) (L : List TraceEvent) : Option Kind :=
  L.reverse.findSome? (inclKindOf q)

/-- The tag contribution of a node event at `q` to `lastEvent`. -/
def nodeTagOf (q : String) (e : TraceEvent) : Option EvTag :=
  if touchesNode q e then some e.tag else none

/-- The tag of the last node event at `q` (what `lastEvent` ends up as). -/
def lastTag (q : String) (L : List TraceEvent) : Option EvTag :=
  L.reverse.findSome? (nodeTagOf q)

/-- The child paths linked into `q`, in event order (with repeats). -/
def linksOf (q : String) (L : List TraceEvent) : List String :=
  L.filterMap (fun e => if touchesLink q e then some (normalizePath e.path) else none)

/-- Whether any event touches path `q` at all. -/
def touched (q : String) (L : List TraceEvent) : Bool :=
  L.any (fun e => touchesNode q e || touchesLink q e)

/-- Append each child id to the list unless already present. -/
def pushAll (cs : List String) (ls : List String) : List String :=
  ls.foldl (fun acc c => if c ∈ acc then acc else acc ++ [c]) cs

/-- The status components of the per-path node state. -/
def statusOfOpt (x : Option TreeNode) : Status :=
  match x with
  | some n => n.meta.status
  | none => .unknown

/-- The status/reason/pattern triple of the per-path closed form. -/
def srpOf (q : String) (x : Option TreeNode) (L : List TraceEvent) :
    Status × Option String × Option String :=
  match lastDef q L with
  | some (.inc _) => (.included, none, none)
  | some (.ign r p) => (.ignored, some r, p)
  | some (.skp r p) => (.skipped, some r, p)
  | some .err => (.ignored, some "error", none)
  | none =>
    if hasTemp q L ∧ statusOfOpt x = .unknown then
      (.ignored, some "temporary", x.bind (·.meta.pat))
    else (statusOfOpt x, x.bind (·.meta.reason), x.bind (·.meta.pat))

/-- The record of the per-path closed form (meaningful when `touched`). -/
def mkRec (q : String) (x : Option TreeNode) (L : List TraceEvent) : TreeNode :=
  { id := match x with | some n => n.id | none => q
    name := match x with | some n => n.name | none => nodeName q
    path := match x with | some n => n.path | none => q
    kind :=
      if L.any (fun e => kindContrib q e == some .dir) then .dir
      else match x with | some n => n.kind | none => (L.findSome? (kindContrib q)).getD .file
    children := pushAll (match x with | some n => n.children | none => []) (linksOf q L)
    meta :=
      { status := (srpOf q x L).1
        reason := (srpOf q x L).2.1
        pat := (srpOf q x L).2.2
        kind := (lastIncl q L).or (x.bind (·.meta.kind))
        lastEvent := (lastTag q L).or (x.bind (·.meta.lastEvent))
        statusB := x.bind (·.meta.statusB)
        reasonB := x.bind (·.meta.reasonB)
        patternB := x.bind (·.meta.patternB) } }

/-- The closed form of folding `peff q` over an event list: the final
per-path node state as a function of the list's extracts. -/
def mkFinal (q : String) (x : Option TreeNode) (L : List TraceEvent) : Option TreeNode :=
  if touched q L = false then x else some (mkRec q x L)

/-! ### Map lemmas -/

/-- The well-foundedness measure on paths: `0` for the root sentinel, the
length otherwise. -/
def pathMeasure (p : String) : Nat := if p = ROOT_ID then 0 else p.length

/-- The typed events decoded from a line list: blank lines skipped, one
decoded event per remaining line that parses. -/
def decodedEvents (decode : String → Option TraceEvent) (lines : List String) :
    List TraceEvent :=
  lines.filterMap (fun l => if l.trim = "" then none else decode l.trim)

/-- The composite node `mergeIndexes` produces for one key, as a function of
the two sides' entries. -/
def mergedNodeAt (a b : TraceIndex) (key : String) : Option TreeNode :=
  let nodeA := lookupN a.nodes key
  let nodeB := lookupN b.nodes key
  match nodeA.or nodeB with
  | none => none
  | some base =>
    some
      { base with
        meta :=
          { status := match nodeA with | some na => na.meta.status | none => .unknown
            reason := nodeA.bind (·.meta.reason)
            pat := nodeA.bind (·.meta.pat)
            kind := some base.kind
            lastEvent := nodeA.bind (·.meta.lastEvent)
            statusB := some (match nodeB with | some nb => nb.meta.status | none => .unknown)
            reasonB := nodeB.bind (·.meta.reason)
            patternB := nodeB.bind (·.meta.pat) }
        children := base.children }

/-- A small concrete node used by witness fixtures. -/
def wNode (path : String) (st : Status) (r : Option String) (pat : Option String)
    (children : List String) : TreeNode :=
  { id := path
    name := path
    path := path
    kind := .file
    meta := { status := st, reason := r, pat := pat, lastEvent := some .incl }
    children := children }

/-- Concrete fixture index A (root with children `onlyA`, `shared`). -/
def fixA : TraceIndex :=
  { rootId := "."
    nodes :=
      [(".", wNode "." .unknown none none ["onlyA", "shared"]),
       ("onlyA", wNode "onlyA" .included none none []),
       ("shared", wNode "shared" .ignored (some "ra") (some "pa") [])]
    counts := { included := 1, ignored := 1, skipped := 0 } }

/-- Concrete fixture index B (root with children `onlyB`, `shared`). -/
def fixB : TraceIndex :=
  { rootId := "."
    nodes :=
      [(".", wNode "." .unknown none none ["onlyB", "shared"]),
       ("onlyB", wNode "onlyB" .skipped (some "rb") none []),
       ("shared", wNode "shared" .included none none [])]
    counts := { included := 1, ignored := 0, skipped := 1 } }

/-- Concrete fixture index with a different root sentinel. -/
def fixRootB : TraceIndex :=
  { rootId := "root2"
    nodes := [("root2", wNode "root2" .included none none [])]
    counts := { included := 1, ignored := 0, skipped := 0 } }

/-- Search fixture: an "a/b" leaf under an ignored directory "a"; with
`showExcluded := false` neither "a" nor "a/b" passes self-visibility. -/
def fixSRoot : TreeNode :=
  { wNode "." .unknown none none ["a"] with kind := Kind.dir }

def fixSA : TreeNode :=
  { wNode "a" .ignored none none ["a/b"] with kind := Kind.dir }

def fixSAB : TreeNode :=
  wNode "a/b" .ignored none none []

def fixS : TraceIndex :=
  { rootId := "."
    nodes := [(".", fixSRoot), ("a", fixSA), ("a/b", fixSAB)]
    counts := { included := 0, ignored := 2, skipped := 0 } }

/-- Fixture nodes for the ordering example: a file `b.txt`, an empty dir `a`,
and a dir `c` with one child and 500 descendants' worth of subtree cost. -/
def exNodes : NodeMap :=
  [("b.txt", wNode "b.txt" .included none none []),
   ("a", { wNode "a" .unknown none none [] with kind := Kind.dir }),
   ("c", { wNode "c" .unknown none none ["c/x"] with kind := Kind.dir })]

/-- Fixture subtree stats for the ordering example. -/
def exStats : StatsMap :=
  [("b.txt", ⟨1, 1, 0, 0, 0⟩), ("a", ⟨1, 0, 1, 0, 0⟩), ("c", ⟨501, 450, 51, 0, 0⟩)]

theorem lookupN_setN (m : NodeMap) (k : String) (v : TreeNode) (q : String) :
    lookupN (setN m k v) q = if q = k then some v else lookupN m q := by
  induction m with
  | nil =>
    by_cases hq : q = k
    · simp [setN, lookupN, hq]
    · simp [setN, lookupN, hq, Ne.symm hq]
  | cons hd tl ih =>
    by_cases hk : hd.1 = k
    · by_cases hq : q = k
      · simp [setN, lookupN, hk, hq]
      · have hhd : hd.1 ≠ q := fun h => hq (h.symm.trans hk)
        simp [setN, lookupN, hk, hq, Ne.symm hq, hhd]
    · by_cases hhd : hd.1 = q
      · have hq : q ≠ k := fun h => hk (hhd.symm ▸ h : hd.1 = k)
        simp [setN, lookupN, hk, hq, hhd]
      · simp [setN, lookupN, hk, hhd, ih]

/-! ### Path lemmas -/

theorem lastSlash_lt {l : List Char} {i : Nat} (h : lastSlash l = some i) :
    i < l.length := by
  induction l generalizing i with
  | nil => simp [lastSlash] at h
  | cons c rest ih =>
    simp only [lastSlash] at h
    cases hrec : lastSlash rest with
    | some j =>
      rw [hrec] at h
      cases h
      exact Nat.succ_lt_succ (ih hrec)
    | none =>
      rw [hrec] at h
      by_cases hc : c = '/'
      · simp [hc] at h
        cases h
        exact Nat.succ_pos _
      · simp [hc] at h

theorem mk_take_length (p : String) (idx : Nat) :
    (String.mk (p.toList.take idx)).length = min idx p.length := by
  have h1 : (String.mk (p.toList.take idx)).length = (p.toList.take idx).length := rfl
  have h2 : p.length = p.toList.length := rfl
  rw [h1, h2, List.length_take]

theorem toParentPath_ne (p : String) : toParentPath p ≠ p := by
  unfold toParentPath
  by_cases hr : p = ROOT_ID
  · subst hr
    simp [ROOT_ID]
  · simp only [hr, if_neg, ite_false]
    cases hls : lastSlash p.toList with
    | none =>
      intro h
      exact hr h.symm
    | some idx =>
      simp only []
      by_cases hp : String.mk (p.toList.take idx) = ""
      · simp only [hp, if_pos]
        intro h
        exact hr h.symm
      · simp only [hp, if_neg, ite_false]
        intro h
        have hlen : (String.mk (p.toList.take idx)).length = p.length := by rw [h]
        have hlt : idx < p.toList.length := lastSlash_lt hls
        have h2 : p.length = p.toList.length := rfl
        rw [mk_take_length, h2] at hlen
        omega

theorem length_pos_of_ne_empty {p : String} (h : p ≠ "") : 0 < p.length := by
  cases hp : p.toList with
  | nil =>
    exfalso
    apply h
    cases p with
    | mk data =>
      simp only [String.toList] at hp
      simp [hp]
  | cons c rest =>
    have h2 : p.length = p.toList.length := rfl
    rw [h2, hp]
    simp

theorem toParentPath_measure_lt {p : String} (hne : p ≠ "") (hr : p ≠ ROOT_ID) :
    pathMeasure (toParentPath p) < pathMeasure p := by
  have hmp : pathMeasure p = p.length := by simp [pathMeasure, hr]
  have hppos : 0 < p.length := length_pos_of_ne_empty hne
  rw [hmp]
  unfold toParentPath
  simp only [hr, if_neg, ite_false]
  cases hls : lastSlash p.toList with
  | none =>
    have : pathMeasure ROOT_ID = 0 := by simp [pathMeasure]
    simpa [this] using hppos
  | some idx =>
    simp only []
    by_cases hp : String.mk (p.toList.take idx) = ""
    · simp only [hp, if_pos]
      have : pathMeasure ROOT_ID = 0 := by simp [pathMeasure]
      simpa [this] using hppos
    · simp only [hp, if_neg, ite_false]
      have hlt : idx < p.toList.length := lastSlash_lt hls
      have h2 : p.length = p.toList.length := rfl
      by_cases hroot : String.mk (p.toList.take idx) = ROOT_ID
      · have h0 : pathMeasure (String.mk (p.toList.take idx)) = 0 := by
          unfold pathMeasure
          rw [if_pos hroot]
        rw [h0]
        omega
      · have h0 : pathMeasure (String.mk (p.toList.take idx)) =
            (String.mk (p.toList.take idx)).length := by
          unfold pathMeasure
          rw [if_neg hroot]
        rw [h0, mk_take_length, h2]
        omega

/-! ### Pointwise projection of `applyEvent` -/

theorem lookupN_ensureNode_self (m : NodeMap) (p : String) (k : Kind) :
    lookupN (ensureNode m p k) p = some (ensuredNode (lookupN m p) p k) := by
  unfold ensureNode ensuredNode
  cases h : lookupN m p with
  | some n =>
    by_cases hc : k = .dir ∧ n.kind ≠ .dir
    · simp [hc, lookupN_setN]
    · simp [hc, h]
  | none => simp [lookupN_setN]

theorem lookupN_ensureNode_ne (m : NodeMap) (p : String) (k : Kind) (q : String)
    (h : q ≠ p) :
    lookupN (ensureNode m p k) q = lookupN m q := by
  unfold ensureNode
  cases hm : lookupN m p with
  | some n =>
    by_cases hc : k = .dir ∧ n.kind ≠ .dir
    · simp [hc, lookupN_setN, h]
    · simp [hc]
  | none => simp [lookupN_setN, h]

theorem lookupN_linkParent_ne (m : NodeMap) (c q : String)
    (h : q ≠ toParentPath c) :
    lookupN (linkParent m c) q = lookupN m q := by
  unfold linkParent
  by_cases hpp : toParentPath c = ""
  · simp [hpp]
  · simp only [hpp, if_neg, ite_false]
    rw [lookupN_ensureNode_self]
    simp only []
    rw [lookupN_setN]
    simp [h, lookupN_ensureNode_ne m _ _ q h]

theorem lookupN_linkParent_parent (m : NodeMap) (c : String)
    (hpp : toParentPath c ≠ "") :
    lookupN (linkParent m c) (toParentPath c) =
      linkEffect (toParentPath c) c (lookupN m (toParentPath c)) := by
  unfold linkParent linkEffect
  simp only [hpp, if_neg, ite_false]
  rw [lookupN_ensureNode_self]
  simp only []
  rw [lookupN_setN]
  simp

theorem lookupN_applyEvent (m : NodeMap) (e : TraceEvent) (q : String) :
    lookupN (applyEvent m e) q = peff q e (lookupN m q) := by
  unfold applyEvent peff
  by_cases hs : e.tag = .summary
  · simp [hs]
  · simp only [hs, if_neg, ite_false]
    by_cases hpe : normalizePath e.path = ""
    · simp [hpe]
    · simp only [hpe, if_neg, ite_false]
      have hpne : normalizePath e.path ≠ toParentPath (normalizePath e.path) :=
        Ne.symm (toParentPath_ne (normalizePath e.path))
      have hm2p :
          lookupN (linkParent (ensureNode m (normalizePath e.path) (inferKind e))
              (normalizePath e.path)) (normalizePath e.path) =
            some (ensuredNode (lookupN m (normalizePath e.path)) (normalizePath e.path)
              (inferKind e)) := by
        rw [lookupN_linkParent_ne _ _ _ hpne]
        exact lookupN_ensureNode_self m _ _
      rw [hm2p]
      simp only []
      rw [lookupN_setN]
      by_cases hq : q = normalizePath e.path
      · rw [if_pos hq, if_pos hq.symm]
        subst hq
        rfl
      · rw [if_neg hq, if_neg (Ne.symm hq)]
        by_cases hpar : toParentPath (normalizePath e.path) = q ∧ q ≠ ""
        · rw [if_pos hpar]
          obtain ⟨hpar1, hq0⟩ := hpar
          have hppne : toParentPath (normalizePath e.path) ≠ "" := by
            rw [hpar1]; exact hq0
          subst hpar1
          rw [lookupN_linkParent_parent _ _ hppne]
          rw [lookupN_ensureNode_ne _ _ _ _ hq]
        · rw [if_neg hpar]
          by_cases hqpar : q = toParentPath (normalizePath e.path)
          · have hq0 : q = "" := by
              by_contra hq0
              exact hpar ⟨hqpar.symm, hq0⟩
            have hpp0 : toParentPath (normalizePath e.path) = "" := hqpar.symm.trans hq0
            simp only [linkParent]
            rw [if_pos hpp0]
            exact lookupN_ensureNode_ne _ _ _ _ hq
          · rw [lookupN_linkParent_ne _ _ _ hqpar]
            exact lookupN_ensureNode_ne _ _ _ _ hq

/-! ### Extract lemmas for the per-path closed form -/

theorem touches_excl {q : String} {e : TraceEvent} (h : touchesNode q e = true) :
    touchesLink q e = false := by
  unfold touchesNode at h
  unfold touchesLink
  simp only [Bool.and_eq_true, bne_iff_ne, beq_iff_eq] at h
  simp only [Bool.and_eq_false_iff, bne_iff_ne, beq_iff_eq]
  obtain ⟨⟨h1, h2⟩, h3⟩ := h
  simp [h3]

theorem peff_cases (q : String) (e : TraceEvent) (x : Option TreeNode) :
    peff q e x =
      if touchesNode q e then nodeEffect q e x
      else if touchesLink q e then linkEffect q (normalizePath e.path) x
      else x := by
  unfold peff touchesNode touchesLink
  by_cases hs : e.tag = .summary
  · simp [hs]
  · by_cases hpe : normalizePath e.path = ""
    · simp [hs, hpe]
    · by_cases hpq : normalizePath e.path = q
      · simp [hs, hpe, hpq]
      · by_cases hq0 : q = ""
        · simp [hs, hpe, hpq, hq0]
        · by_cases hpar : toParentPath (normalizePath e.path) = q
          · simp [hs, hpe, hpq, hq0, hpar]
          · simp [hs, hpe, hpq, hq0, hpar]

theorem touched_snoc (q : String) (L : List TraceEvent) (e : TraceEvent) :
    touched q (L ++ [e]) = (touched q L || (touchesNode q e || touchesLink q e)) := by
  simp [touched]

theorem lastDef_snoc (q : String) (L : List TraceEvent) (e : TraceEvent) :
    lastDef q (L ++ [e]) = (defOf q e).or (lastDef q L) := by
  simp only [lastDef, List.reverse_append, List.reverse_singleton, List.singleton_append,
    List.findSome?_cons]
  cases defOf q e <;> simp

theorem hasTemp_snoc (q : String) (L : List TraceEvent) (e : TraceEvent) :
    hasTemp q (L ++ [e]) = (hasTemp q L || (touchesNode q e && e.tag == .temp)) := by
  simp [hasTemp]

theorem lastIncl_snoc (q : String) (L : List TraceEvent) (e : TraceEvent) :
    lastIncl q (L ++ [e]) = (inclKindOf q e).or (lastIncl q L) := by
  simp only [lastIncl, List.reverse_append, List.reverse_singleton, List.singleton_append,
    List.findSome?_cons]
  cases inclKindOf q e <;> simp

theorem lastTag_snoc (q : String) (L : List TraceEvent) (e : TraceEvent) :
    lastTag q (L ++ [e]) = (nodeTagOf q e).or (lastTag q L) := by
  simp only [lastTag, List.reverse_append, List.reverse_singleton, List.singleton_append,
    List.findSome?_cons]
  cases nodeTagOf q e <;> simp

theorem firstKind_snoc (q : String) (L : List TraceEvent) (e : TraceEvent) :
    (L ++ [e]).findSome? (kindContrib q) =
      (L.findSome? (kindContrib q)).or (kindContrib q e) := by
  rw [List.findSome?_append]
  cases L.findSome? (kindContrib q) with
  | none =>
    rw [Option.none_or]
    cases h : kindContrib q e <;> simp [List.findSome?, h]
  | some k => simp [List.findSome?]

theorem anyDir_snoc (q : String) (L : List TraceEvent) (e : TraceEvent) :
    ((L ++ [e]).any (fun x => kindContrib q x == some .dir)) =
      ((L.any (fun x => kindContrib q x == some .dir)) || (kindContrib q e == some .dir)) := by
  simp

theorem linksOf_snoc (q : String) (L : List TraceEvent) (e : TraceEvent) :
    linksOf q (L ++ [e]) =
      linksOf q L ++ (if touchesLink q e then [normalizePath e.path] else []) := by
  simp only [linksOf, List.filterMap_append]
  congr 1
  by_cases h : touchesLink q e <;> simp [h, List.filterMap]

theorem pushAll_snoc (cs ls : List String) (c : String) :
    pushAll cs (ls ++ [c]) =
      (if c ∈ pushAll cs ls then pushAll cs ls else pushAll cs ls ++ [c]) := by
  simp [pushAll, List.foldl_append]

theorem touched_false_elim {q : String} {L : List TraceEvent} (h : touched q L = false) :
    ∀ e ∈ L, touchesNode q e = false ∧ touchesLink q e = false := by
  intro e he
  have h1 := List.any_eq_false.mp h e he
  simp only [Bool.or_eq_true, not_or, Bool.not_eq_true] at h1
  exact h1

theorem lastDef_of_untouched {q : String} {L : List TraceEvent}
    (h : touched q L = false) : lastDef q L = none := by
  apply List.findSome?_eq_none_iff.mpr
  intro e he
  rw [List.mem_reverse] at he
  simp [defOf, (touched_false_elim h e he).1]

theorem hasTemp_of_untouched {q : String} {L : List TraceEvent}
    (h : touched q L = false) : hasTemp q L = false := by
  apply List.any_eq_false.mpr
  intro e he
  simp [(touched_false_elim h e he).1]

theorem lastIncl_of_untouched {q : String} {L : List TraceEvent}
    (h : touched q L = false) : lastIncl q L = none := by
  apply List.findSome?_eq_none_iff.mpr
  intro e he
  rw [List.mem_reverse] at he
  simp [inclKindOf, (touched_false_elim h e he).1]

theorem lastTag_of_untouched {q : String} {L : List TraceEvent}
    (h : touched q L = false) : lastTag q L = none := by
  apply List.findSome?_eq_none_iff.mpr
  intro e he
  rw [List.mem_reverse] at he
  simp [nodeTagOf, (touched_false_elim h e he).1]

theorem kindContrib_of_untouchedEv {q : String} {e : TraceEvent}
    (h1 : touchesNode q e = false) (h2 : touchesLink q e = false) :
    kindContrib q e = none := by
  simp [kindContrib, h1, h2]

theorem firstKind_of_untouched {q : String} {L : List TraceEvent}
    (h : touched q L = false) : L.findSome? (kindContrib q) = none := by
  apply List.findSome?_eq_none_iff.mpr
  intro e he
  obtain ⟨h1, h2⟩ := touched_false_elim h e he
  exact kindContrib_of_untouchedEv h1 h2

theorem anyDir_of_untouched {q : String} {L : List TraceEvent}
    (h : touched q L = false) :
    (L.any (fun x => kindContrib q x == some .dir)) = false := by
  apply List.any_eq_false.mpr
  intro e he
  obtain ⟨h1, h2⟩ := touched_false_elim h e he
  simp [kindContrib_of_untouchedEv h1 h2]

theorem linksOf_of_untouched {q : String} {L : List TraceEvent}
    (h : touched q L = false) : linksOf q L = [] := by
  apply List.filterMap_eq_nil_iff.mpr
  intro e he
  simp [(touched_false_elim h e he).2]

theorem mkFinal_nil (q : String) (x : Option TreeNode) : mkFinal q x [] = x := by
  simp [mkFinal, touched]

theorem mkFinal_snoc_skip (q : String) (x : Option TreeNode) (L : List TraceEvent)
    (e : TraceEvent) (h1 : touchesNode q e = false) (h2 : touchesLink q e = false) :
    mkFinal q x (L ++ [e]) = mkFinal q x L := by
  have hd : defOf q e = none := by simp [defOf, h1]
  have hik : inclKindOf q e = none := by simp [inclKindOf, h1]
  have hnt : nodeTagOf q e = none := by simp [nodeTagOf, h1]
  have hkc : kindContrib q e = none := kindContrib_of_untouchedEv h1 h2
  simp only [mkFinal, mkRec, srpOf, touched_snoc, lastDef_snoc, hasTemp_snoc, lastIncl_snoc,
    lastTag_snoc, firstKind_snoc, anyDir_snoc, linksOf_snoc, h1, h2, hd, hik, hnt, hkc,
    Bool.or_false, Bool.false_and, Option.none_or, Option.or_none,
    List.append_nil, Bool.and_false]
  simp

theorem touchesNode_of_link {q : String} {e : TraceEvent} (h : touchesLink q e = true) :
    touchesNode q e = false := by
  unfold touchesLink at h
  unfold touchesNode
  simp only [Bool.and_eq_true, bne_iff_ne, beq_iff_eq] at h
  simp only [Bool.and_eq_false_iff, bne_iff_ne, beq_iff_eq]
  right
  simpa using h.1.1.2

theorem linkEffect_some (q c : String) (N : TreeNode) :
    linkEffect q c (some N) =
      some ({ N with
        kind := Kind.dir
        children := if c ∈ N.children then N.children else N.children ++ [c] }) := by
  unfold linkEffect ensuredNode
  by_cases h : N.kind = .dir
  · cases N
    simp_all
  · cases N
    simp_all

theorem linkEffect_none (q c : String) :
    linkEffect q c none = some { freshNode q .dir with children := [c] } := by
  simp [linkEffect, ensuredNode, freshNode]

theorem mkFinal_untouched {q : String} {x : Option TreeNode} {L : List TraceEvent}
    (h : touched q L = false) : mkFinal q x L = x := by
  simp [mkFinal, h]

theorem mkFinal_touched {q : String} {x : Option TreeNode} {L : List TraceEvent}
    (h : touched q L = true) : mkFinal q x L = some (mkRec q x L) := by
  simp [mkFinal, h]

theorem mkFinal_snoc_link (q : String) (x : Option TreeNode) (L : List TraceEvent)
    (e : TraceEvent) (h1 : touchesLink q e = true) :
    mkFinal q x (L ++ [e]) = linkEffect q (normalizePath e.path) (mkFinal q x L) := by
  have h0 : touchesNode q e = false := touchesNode_of_link h1
  have hd : defOf q e = none := by simp [defOf, h0]
  have hik : inclKindOf q e = none := by simp [inclKindOf, h0]
  have hnt : nodeTagOf q e = none := by simp [nodeTagOf, h0]
  have hkc : kindContrib q e = some .dir := by simp [kindContrib, h0, h1]
  have htouch' : touched q (L ++ [e]) = true := by
    rw [touched_snoc, h0, h1]
    simp
  rw [mkFinal_touched htouch']
  by_cases ht : touched q L = false
  · have hLD := lastDef_of_untouched ht
    have hHT := hasTemp_of_untouched ht
    have hLI := lastIncl_of_untouched ht
    have hLT := lastTag_of_untouched ht
    have hFK := firstKind_of_untouched ht
    have hAD := anyDir_of_untouched ht
    have hLO := linksOf_of_untouched ht
    rw [mkFinal_untouched ht]
    cases x with
    | none =>
      rw [linkEffect_none]
      simp only [mkRec, srpOf, lastDef_snoc, hasTemp_snoc, lastIncl_snoc, lastTag_snoc,
        firstKind_snoc, anyDir_snoc, linksOf_snoc, hd, hik, hnt, hkc,
        hLD, hHT, hLI, hLT, hFK, hAD, hLO, Option.none_or, Option.or_none]
      simp [pushAll, freshNode, statusOfOpt, h0, h1]
    | some n =>
      rw [linkEffect_some]
      simp only [mkRec, srpOf, lastDef_snoc, hasTemp_snoc, lastIncl_snoc, lastTag_snoc,
        firstKind_snoc, anyDir_snoc, linksOf_snoc, hd, hik, hnt, hkc,
        hLD, hHT, hLI, hLT, hFK, hAD, hLO, Option.none_or, Option.or_none]
      simp [pushAll, statusOfOpt, h0, h1]
  · have ht' : touched q L = true := by
      cases htt : touched q L
      · exact absurd htt ht
      · rfl
    rw [mkFinal_touched ht', linkEffect_some]
    simp only [mkRec, srpOf, lastDef_snoc, hasTemp_snoc, lastIncl_snoc, lastTag_snoc,
      firstKind_snoc, anyDir_snoc, linksOf_snoc, hd, hik, hnt, hkc,
      Option.none_or, Option.or_none, Bool.and_false, Bool.or_false]
    simp [pushAll_snoc, h0, h1]

theorem ensuredNode_some (q : String) (k : Kind) (n : TreeNode) :
    ensuredNode (some n) q k = { n with kind := if k = .dir then .dir else n.kind } := by
  unfold ensuredNode
  by_cases hk : k = .dir
  · by_cases hn : n.kind = .dir
    · cases n; simp_all
    · cases n; simp_all
  · cases n; simp_all

theorem ensuredNode_none (q : String) (k : Kind) :
    ensuredNode none q k = freshNode q k := rfl

theorem touchesNode_tag_ne_summary {q : String} {e : TraceEvent}
    (h : touchesNode q e = true) : e.tag ≠ .summary := by
  unfold touchesNode at h
  simp only [Bool.and_eq_true, bne_iff_ne, beq_iff_eq] at h
  exact h.1.1

theorem kindContrib_of_node {q : String} {e : TraceEvent} (h : touchesNode q e = true) :
    kindContrib q e = some (inferKind e) := by
  simp [kindContrib, h]

theorem or_some_getD {α : Type} (o : Option α) (a : α) :
    (o.or (some a)).getD a = o.getD a := by
  cases o <;> rfl

theorem firstKind_isSome_of_touched {q : String} {L : List TraceEvent}
    (h : touched q L = true) : ∃ kk, L.findSome? (kindContrib q) = some kk := by
  cases hfk : L.findSome? (kindContrib q) with
  | some kk => exact ⟨kk, rfl⟩
  | none =>
    exfalso
    obtain ⟨e, he, hor⟩ := List.any_eq_true.mp h
    have hnone := List.findSome?_eq_none_iff.mp hfk e he
    rcases (Bool.or_eq_true _ _).mp hor with h1 | h1
    · rw [kindContrib_of_node h1] at hnone
      exact Option.noConfusion hnone
    · have h0 : touchesNode q e = false := touchesNode_of_link h1
      rw [show kindContrib q e = some Kind.dir from by simp [kindContrib, h0, h1]] at hnone
      exact Option.noConfusion hnone

theorem mkFinal_snoc_node (q : String) (x : Option TreeNode) (L : List TraceEvent)
    (e : TraceEvent) (h1 : touchesNode q e = true) :
    mkFinal q x (L ++ [e]) = nodeEffect q e (mkFinal q x L) := by
  have hlink : touchesLink q e = false := touches_excl h1
  have hkc : kindContrib q e = some (inferKind e) := kindContrib_of_node h1
  have htouch' : touched q (L ++ [e]) = true := by
    rw [touched_snoc, h1]
    simp
  rw [mkFinal_touched htouch']
  by_cases ht : touched q L = false
  · have hLD := lastDef_of_untouched ht
    have hHT := hasTemp_of_untouched ht
    have hLI := lastIncl_of_untouched ht
    have hLT := lastTag_of_untouched ht
    have hFK := firstKind_of_untouched ht
    have hAD := anyDir_of_untouched ht
    have hLO := linksOf_of_untouched ht
    rw [mkFinal_untouched ht]
    cases e with
    | summary => exact absurd (touchesNode_tag_ne_summary h1) (fun h => h rfl)
    | enter P =>
      cases x with
      | none =>
        simp [mkRec, srpOf, lastDef_snoc, hasTemp_snoc, lastIncl_snoc, lastTag_snoc,
          firstKind_snoc, anyDir_snoc, linksOf_snoc, nodeEffect, ensuredNode_none,
          updateMeta, freshNode, statusOfOpt, pushAll, defOf, inclKindOf, nodeTagOf,
          hkc, or_some_getD, inferKind, TraceEvent.tag, hlink, h1, hLD, hHT, hLI, hLT, hFK,
          hAD, hLO]
      | some n =>
        simp [mkRec, srpOf, lastDef_snoc, hasTemp_snoc, lastIncl_snoc, lastTag_snoc,
          firstKind_snoc, anyDir_snoc, linksOf_snoc, nodeEffect, ensuredNode_some,
          updateMeta, freshNode, statusOfOpt, pushAll, defOf, inclKindOf, nodeTagOf,
          hkc, or_some_getD, inferKind, TraceEvent.tag, hlink, h1, hLD, hHT, hLI, hLT, hFK,
          hAD, hLO]
    | skip P r pp =>
      cases x with
      | none =>
        simp [mkRec, srpOf, lastDef_snoc, hasTemp_snoc, lastIncl_snoc, lastTag_snoc,
          firstKind_snoc, anyDir_snoc, linksOf_snoc, nodeEffect, ensuredNode_none,
          updateMeta, freshNode, statusOfOpt, pushAll, defOf, inclKindOf, nodeTagOf,
          hkc, or_some_getD, inferKind, TraceEvent.tag, hlink, h1, hLD, hHT, hLI, hLT, hFK,
          hAD, hLO]
      | some n =>
        simp [mkRec, srpOf, lastDef_snoc, hasTemp_snoc, lastIncl_snoc, lastTag_snoc,
          firstKind_snoc, anyDir_snoc, linksOf_snoc, nodeEffect, ensuredNode_some,
          updateMeta, freshNode, statusOfOpt, pushAll, defOf, inclKindOf, nodeTagOf,
          hkc, or_some_getD, inferKind, TraceEvent.tag, hlink, h1, hLD, hHT, hLI, hLT, hFK,
          hAD, hLO]
    | ignore P r pp =>
      cases x with
      | none =>
        simp [mkRec, srpOf, lastDef_snoc, hasTemp_snoc, lastIncl_snoc, lastTag_snoc,
          firstKind_snoc, anyDir_snoc, linksOf_snoc, nodeEffect, ensuredNode_none,
          updateMeta, freshNode, statusOfOpt, pushAll, defOf, inclKindOf, nodeTagOf,
          hkc, or_some_getD, inferKind, TraceEvent.tag, hlink, h1, hLD, hHT, hLI, hLT, hFK,
          hAD, hLO]
      | some n =>
        simp [mkRec, srpOf, lastDef_snoc, hasTemp_snoc, lastIncl_snoc, lastTag_snoc,
          firstKind_snoc, anyDir_snoc, linksOf_snoc, nodeEffect, ensuredNode_some,
          updateMeta, freshNode, statusOfOpt, pushAll, defOf, inclKindOf, nodeTagOf,
          hkc, or_some_getD, inferKind, TraceEvent.tag, hlink, h1, hLD, hHT, hLI, hLT, hFK,
          hAD, hLO]
    | normalize P =>
      cases x with
      | none =>
        simp [mkRec, srpOf, lastDef_snoc, hasTemp_snoc, lastIncl_snoc, lastTag_snoc,
          firstKind_snoc, anyDir_snoc, linksOf_snoc, nodeEffect, ensuredNode_none,
          updateMeta, freshNode, statusOfOpt, pushAll, defOf, inclKindOf, nodeTagOf,
          hkc, or_some_getD, inferKind, TraceEvent.tag, hlink, h1, hLD, hHT, hLI, hLT, hFK,
          hAD, hLO]
      | some n =>
        simp [mkRec, srpOf, lastDef_snoc, hasTemp_snoc, lastIncl_snoc, lastTag_snoc,
          firstKind_snoc, anyDir_snoc, linksOf_snoc, nodeEffect, ensuredNode_some,
          updateMeta, freshNode, statusOfOpt, pushAll, defOf, inclKindOf, nodeTagOf,
          hkc, or_some_getD, inferKind, TraceEvent.tag, hlink, h1, hLD, hHT, hLI, hLT, hFK,
          hAD, hLO]
    | error P =>
      cases x with
      | none =>
        simp [mkRec, srpOf, lastDef_snoc, hasTemp_snoc, lastIncl_snoc, lastTag_snoc,
          firstKind_snoc, anyDir_snoc, linksOf_snoc, nodeEffect, ensuredNode_none,
          updateMeta, freshNode, statusOfOpt, pushAll, defOf, inclKindOf, nodeTagOf,
          hkc, or_some_getD, inferKind, TraceEvent.tag, hlink, h1, hLD, hHT, hLI, hLT, hFK,
          hAD, hLO]
      | some n =>
        simp [mkRec, srpOf, lastDef_snoc, hasTemp_snoc, lastIncl_snoc, lastTag_snoc,
          firstKind_snoc, anyDir_snoc, linksOf_snoc, nodeEffect, ensuredNode_some,
          updateMeta, freshNode, statusOfOpt, pushAll, defOf, inclKindOf, nodeTagOf,
          hkc, or_some_getD, inferKind, TraceEvent.tag, hlink, h1, hLD, hHT, hLI, hLT, hFK,
          hAD, hLO]
    | incl P k =>
      cases x with
      | none =>
        by_cases hk : k = Kind.dir
        · subst hk
          simp [mkRec, srpOf, lastDef_snoc, hasTemp_snoc, lastIncl_snoc, lastTag_snoc,
            firstKind_snoc, anyDir_snoc, linksOf_snoc, nodeEffect, ensuredNode_none,
            updateMeta, freshNode, statusOfOpt, pushAll, defOf, inclKindOf, nodeTagOf,
            hkc, or_some_getD, inferKind, TraceEvent.tag, hlink, h1, hLD, hHT, hLI, hLT, hFK,
            hAD, hLO]
        · simp [mkRec, srpOf, lastDef_snoc, hasTemp_snoc, lastIncl_snoc, lastTag_snoc,
            firstKind_snoc, anyDir_snoc, linksOf_snoc, nodeEffect, ensuredNode_none,
            updateMeta, freshNode, statusOfOpt, pushAll, defOf, inclKindOf, nodeTagOf,
            hkc, or_some_getD, inferKind, TraceEvent.tag, hlink, h1, hLD, hHT, hLI, hLT, hFK,
            hAD, hLO, hk]
      | some n =>
        by_cases hk : k = Kind.dir
        · subst hk
          simp [mkRec, srpOf, lastDef_snoc, hasTemp_snoc, lastIncl_snoc, lastTag_snoc,
            firstKind_snoc, anyDir_snoc, linksOf_snoc, nodeEffect, ensuredNode_some,
            updateMeta, freshNode, statusOfOpt, pushAll, defOf, inclKindOf, nodeTagOf,
            hkc, or_some_getD, inferKind, TraceEvent.tag, hlink, h1, hLD, hHT, hLI, hLT, hFK,
            hAD, hLO]
        · simp [mkRec, srpOf, lastDef_snoc, hasTemp_snoc, lastIncl_snoc, lastTag_snoc,
            firstKind_snoc, anyDir_snoc, linksOf_snoc, nodeEffect, ensuredNode_some,
            updateMeta, freshNode, statusOfOpt, pushAll, defOf, inclKindOf, nodeTagOf,
            hkc, or_some_getD, inferKind, TraceEvent.tag, hlink, h1, hLD, hHT, hLI, hLT, hFK,
            hAD, hLO, hk]
    | temp P =>
      cases x with
      | none =>
        simp [mkRec, srpOf, lastDef_snoc, hasTemp_snoc, lastIncl_snoc, lastTag_snoc,
          firstKind_snoc, anyDir_snoc, linksOf_snoc, nodeEffect, ensuredNode_none,
          updateMeta, freshNode, statusOfOpt, pushAll, defOf, inclKindOf, nodeTagOf,
          hkc, or_some_getD, inferKind, TraceEvent.tag, hlink, h1, hLD, hHT, hLI, hLT, hFK,
          hAD, hLO]
      | some n =>
        by_cases hxs : n.meta.status = Status.unknown <;>
          simp [mkRec, srpOf, lastDef_snoc, hasTemp_snoc, lastIncl_snoc, lastTag_snoc,
            firstKind_snoc, anyDir_snoc, linksOf_snoc, nodeEffect, ensuredNode_some,
            updateMeta, freshNode, statusOfOpt, pushAll, defOf, inclKindOf, nodeTagOf,
            hkc, or_some_getD, inferKind, TraceEvent.tag, hlink, h1, hLD, hHT, hLI, hLT, hFK,
            hAD, hLO, hxs]
  · have ht' : touched q L = true := by
      cases htt : touched q L
      · exact absurd htt ht
      · rfl
    obtain ⟨kk, hfk⟩ := firstKind_isSome_of_touched ht'
    rw [mkFinal_touched ht']
    cases e with
    | summary => exact absurd (touchesNode_tag_ne_summary h1) (fun h => h rfl)
    | enter P =>
      simp [mkRec, srpOf, lastDef_snoc, hasTemp_snoc, lastIncl_snoc, lastTag_snoc,
        firstKind_snoc, anyDir_snoc, linksOf_snoc, nodeEffect, ensuredNode_some,
        updateMeta, statusOfOpt, pushAll, defOf, inclKindOf, nodeTagOf,
        hkc, hfk, or_some_getD, inferKind, TraceEvent.tag, hlink, h1]
    | skip P r pp =>
      simp [mkRec, srpOf, lastDef_snoc, hasTemp_snoc, lastIncl_snoc, lastTag_snoc,
        firstKind_snoc, anyDir_snoc, linksOf_snoc, nodeEffect, ensuredNode_some,
        updateMeta, statusOfOpt, pushAll, defOf, inclKindOf, nodeTagOf,
        hkc, hfk, or_some_getD, inferKind, TraceEvent.tag, hlink, h1]
    | ignore P r pp =>
      simp [mkRec, srpOf, lastDef_snoc, hasTemp_snoc, lastIncl_snoc, lastTag_snoc,
        firstKind_snoc, anyDir_snoc, linksOf_snoc, nodeEffect, ensuredNode_some,
        updateMeta, statusOfOpt, pushAll, defOf, inclKindOf, nodeTagOf,
        hkc, hfk, or_some_getD, inferKind, TraceEvent.tag, hlink, h1]
    | normalize P =>
      simp [mkRec, srpOf, lastDef_snoc, hasTemp_snoc, lastIncl_snoc, lastTag_snoc,
        firstKind_snoc, anyDir_snoc, linksOf_snoc, nodeEffect, ensuredNode_some,
        updateMeta, statusOfOpt, pushAll, defOf, inclKindOf, nodeTagOf,
        hkc, hfk, or_some_getD, inferKind, TraceEvent.tag, hlink, h1]
    | error P =>
      simp [mkRec, srpOf, lastDef_snoc, hasTemp_snoc, lastIncl_snoc, lastTag_snoc,
        firstKind_snoc, anyDir_snoc, linksOf_snoc, nodeEffect, ensuredNode_some,
        updateMeta, statusOfOpt, pushAll, defOf, inclKindOf, nodeTagOf,
        hkc, hfk, or_some_getD, inferKind, TraceEvent.tag, hlink, h1]
    | incl P k =>
      by_cases hk : k = Kind.dir
      · subst hk
        by_cases had : (L.any fun y => kindContrib q y == some Kind.dir) = true <;>
          simp [mkRec, srpOf, lastDef_snoc, hasTemp_snoc, lastIncl_snoc, lastTag_snoc,
            firstKind_snoc, anyDir_snoc, linksOf_snoc, nodeEffect, ensuredNode_some,
            updateMeta, statusOfOpt, pushAll, defOf, inclKindOf, nodeTagOf,
            hkc, hfk, or_some_getD, inferKind, TraceEvent.tag, hlink, h1, had]
      · by_cases had : (L.any fun y => kindContrib q y == some Kind.dir) = true <;>
          simp [mkRec, srpOf, lastDef_snoc, hasTemp_snoc, lastIncl_snoc, lastTag_snoc,
            firstKind_snoc, anyDir_snoc, linksOf_snoc, nodeEffect, ensuredNode_some,
            updateMeta, statusOfOpt, pushAll, defOf, inclKindOf, nodeTagOf,
            hkc, hfk, or_some_getD, inferKind, TraceEvent.tag, hlink, h1, hk, had]
    | temp P =>
      rcases hld : lastDef q L with _ | d
      · by_cases hxs : statusOfOpt x = Status.unknown
        · by_cases hht : hasTemp q L = true
          · simp [mkRec, srpOf, lastDef_snoc, hasTemp_snoc, lastIncl_snoc, lastTag_snoc,
              firstKind_snoc, anyDir_snoc, linksOf_snoc, nodeEffect, ensuredNode_some,
              updateMeta, pushAll, defOf, inclKindOf, nodeTagOf,
              hkc, hfk, or_some_getD, inferKind, TraceEvent.tag, hlink, h1, hld, hxs, hht]
          · have hh : hasTemp q L = false := by
              cases hhh : hasTemp q L
              · rfl
              · exact absurd hhh hht
            simp [mkRec, srpOf, lastDef_snoc, hasTemp_snoc, lastIncl_snoc, lastTag_snoc,
              firstKind_snoc, anyDir_snoc, linksOf_snoc, nodeEffect, ensuredNode_some,
              updateMeta, pushAll, defOf, inclKindOf, nodeTagOf,
              hkc, hfk, or_some_getD, inferKind, TraceEvent.tag, hlink, h1, hld, hxs, hh]
        · simp [mkRec, srpOf, lastDef_snoc, hasTemp_snoc, lastIncl_snoc, lastTag_snoc,
            firstKind_snoc, anyDir_snoc, linksOf_snoc, nodeEffect, ensuredNode_some,
            updateMeta, pushAll, defOf, inclKindOf, nodeTagOf,
            hkc, hfk, or_some_getD, inferKind, TraceEvent.tag, hlink, h1, hld, hxs]
      · rcases d with k | ⟨r, pp⟩ | ⟨r, pp⟩ | _ <;>
          simp [mkRec, srpOf, lastDef_snoc, hasTemp_snoc, lastIncl_snoc, lastTag_snoc,
            firstKind_snoc, anyDir_snoc, linksOf_snoc, nodeEffect, ensuredNode_some,
            updateMeta, pushAll, defOf, inclKindOf, nodeTagOf,
            hkc, hfk, or_some_getD, inferKind, TraceEvent.tag, hlink, h1, hld]

theorem foldl_peff_eq_mkFinal (q : String) (L : List TraceEvent) (x : Option TreeNode) :
    L.foldl (fun y e => peff q e y) x = mkFinal q x L := by
  induction L using List.reverseRecOn with
  | nil => rw [List.foldl_nil, mkFinal_nil]
  | append_singleton L e ih =>
    rw [List.foldl_append, List.foldl_cons, List.foldl_nil, ih, peff_cases]
    by_cases h1 : touchesNode q e = true
    · rw [if_pos h1, mkFinal_snoc_node q x L e h1]
    · have h1' : touchesNode q e = false := by
        cases h : touchesNode q e
        · rfl
        · exact absurd h h1
      rw [if_neg h1]
      by_cases h2 : touchesLink q e = true
      · rw [if_pos h2, mkFinal_snoc_link q x L e h2]
      · have h2' : touchesLink q e = false := by
          cases h : touchesLink q e
          · rfl
          · exact absurd h h2
        rw [if_neg h2, mkFinal_snoc_skip q x L e h1' h2']

/-! ### Replay idempotence of the closed form -/

theorem touched_self_append (q : String) (L : List TraceEvent) :
    touched q (L ++ L) = touched q L := by
  simp [touched, List.any_append]

theorem lastDef_self_append (q : String) (L : List TraceEvent) :
    lastDef q (L ++ L) = lastDef q L := by
  simp [lastDef, List.reverse_append, List.findSome?_append, Option.or_self]

theorem hasTemp_self_append (q : String) (L : List TraceEvent) :
    hasTemp q (L ++ L) = hasTemp q L := by
  simp [hasTemp, List.any_append]

theorem lastIncl_self_append (q : String) (L : List TraceEvent) :
    lastIncl q (L ++ L) = lastIncl q L := by
  simp [lastIncl, List.reverse_append, List.findSome?_append, Option.or_self]

theorem lastTag_self_append (q : String) (L : List TraceEvent) :
    lastTag q (L ++ L) = lastTag q L := by
  simp [lastTag, List.reverse_append, List.findSome?_append, Option.or_self]

theorem firstKind_self_append (q : String) (L : List TraceEvent) :
    (L ++ L).findSome? (kindContrib q) = L.findSome? (kindContrib q) := by
  simp [List.findSome?_append, Option.or_self]

theorem anyDir_self_append (q : String) (L : List TraceEvent) :
    ((L ++ L).any (fun e => kindContrib q e == some .dir)) =
      (L.any (fun e => kindContrib q e == some .dir)) := by
  simp [List.any_append]

theorem linksOf_self_append (q : String) (L : List TraceEvent) :
    linksOf q (L ++ L) = linksOf q L ++ linksOf q L := by
  simp [linksOf, List.filterMap_append]

theorem mem_pushAll_mono {a : String} {cs : List String} (ls : List String)
    (h : a ∈ cs) : a ∈ pushAll cs ls := by
  induction ls generalizing cs with
  | nil => exact h
  | cons l ls ih =>
    simp only [pushAll, List.foldl_cons]
    by_cases hl : l ∈ cs
    · exact ih (by simp [pushAll, hl, h])
    · refine ih ?_
      simp [hl, List.mem_append]
      exact Or.inl h

theorem mem_pushAll_of_mem {a : String} (cs : List String) {ls : List String}
    (h : a ∈ ls) : a ∈ pushAll cs ls := by
  induction ls generalizing cs with
  | nil => simp at h
  | cons l ls ih =>
    rcases List.mem_cons.mp h with rfl | h'
    · have hstep : a ∈ (if a ∈ cs then cs else cs ++ [a]) := by
        by_cases hl : a ∈ cs
        · simp [hl]
        · simp [hl]
      simp only [pushAll, List.foldl_cons]
      exact mem_pushAll_mono ls hstep
    · simp only [pushAll, List.foldl_cons]
      exact ih _ h'

theorem pushAll_of_all_mem {cs ls : List String} (h : ∀ a ∈ ls, a ∈ cs) :
    pushAll cs ls = cs := by
  induction ls with
  | nil => rfl
  | cons l ls ih =>
    have hl : l ∈ cs := h l (List.mem_cons_self l ls)
    simp only [pushAll, List.foldl_cons, if_pos hl]
    exact ih (fun a ha => h a (List.mem_cons_of_mem l ha))

theorem pushAll_append (cs A B : List String) :
    pushAll cs (A ++ B) = pushAll (pushAll cs A) B := by
  simp [pushAll, List.foldl_append]

theorem pushAll_self_append (cs ls : List String) :
    pushAll cs (ls ++ ls) = pushAll cs ls := by
  rw [pushAll_append]
  exact pushAll_of_all_mem (fun a ha => mem_pushAll_of_mem cs ha)

theorem mkFinal_self_append (q : String) (x : Option TreeNode) (L : List TraceEvent) :
    mkFinal q x (L ++ L) = mkFinal q x L := by
  unfold mkFinal mkRec srpOf
  rw [touched_self_append, lastDef_self_append, hasTemp_self_append, lastIncl_self_append,
    lastTag_self_append, firstKind_self_append, anyDir_self_append, linksOf_self_append,
    pushAll_self_append]

theorem lookupN_buildFold (L : List TraceEvent) (m : NodeMap) (q : String) :
    lookupN (L.foldl applyEvent m) q = L.foldl (fun y e => peff q e y) (lookupN m q) := by
  induction L generalizing m with
  | nil => rfl
  | cons e T ih =>
    rw [List.foldl_cons, List.foldl_cons, ih, lookupN_applyEvent]

theorem lookupN_buildNodes (L : List TraceEvent) (q : String) :
    lookupN (buildNodes L) q = mkFinal q (lookupN initNodes q) L := by
  rw [buildNodes, lookupN_buildFold, foldl_peff_eq_mkFinal]

/-! ### Claim theorems -/

/-- C7: for every event list `L`, ingesting the concatenation `L ++ L` yields,
for every path, a node (status, reason, pattern, kind, lastEvent, children —
indeed the whole node) identical to ingesting `L` once: the per-path
latest-event-wins update table is idempotent under replay. -/
theorem c7_replay_idempotent (L : List TraceEvent) (p : String) :
    lookupN (buildNodes (L ++ L)) p = lookupN (buildNodes L) p := by
  rw [lookupN_buildNodes, lookupN_buildNodes, mkFinal_self_append]

/-- C5 (amended): each running count increments once per status-carrying
*event* — `include` into `included`, `ignore`/`temp`/`error` into `ignored`,
`skip` into `skipped` — skipping only `summary` events and events whose
normalized path is empty, and regardless of whether the node's status
actually changes. -/
theorem c5_counts_per_event (L : List TraceEvent) :
    buildCounts L =
      { included := (L.filter (fun e => e.tag == .incl && normalizePath e.path != "")).length
        ignored := (L.filter (fun e =>
          (e.tag == .ignore || e.tag == .temp || e.tag == .error) &&
            normalizePath e.path != "")).length
        skipped :=
          (L.filter (fun e => e.tag == .skip && normalizePath e.path != "")).length } := by
  induction L using List.reverseRecOn with
  | nil => rfl
  | append_singleton L e ih =>
    rw [buildCounts, List.foldl_append, List.foldl_cons, List.foldl_nil,
      show L.foldl countEvent {} = buildCounts L from rfl, ih]
    unfold countEvent
    by_cases hs : e.tag = .summary
    · simp [hs, List.filter_append]
    · by_cases hp : normalizePath e.path = ""
      · simp [hs, hp, List.filter_append]
      · rcases htag : e.tag <;>
          simp_all [List.filter_append, htag]

/-- C5 counterexample: two `include` events on the same path make the
`included` count `2`, while the node transitions into `included` only once —
the counts are per event, not per status transition. -/
theorem c5_counterexample :
    (buildCounts [TraceEvent.incl "a" .file, TraceEvent.incl "a" .file]).included = 2 ∧
      transitionsInto .included [TraceEvent.incl "a" .file, TraceEvent.incl "a" .file] = 1 ∧
      (2 : Nat) ≠ 1 := by
  refine ⟨by decide, by decide, by decide⟩

theorem parseLines_errors (decode : String → Option TraceEvent) (st : ParsedSt)
    (i : Nat) (ls : List String) :
    (parseLines decode st i ls).errors =
      st.errors ++ (ls.enumFrom i).filterMap (fun p =>
        if p.2.trim = "" then none
        else if (decode p.2.trim).isSome then none else some (p.1 + 1)) := by
  induction ls generalizing st i with
  | nil => simp [parseLines]
  | cons l ls ih =>
    rw [parseLines, ih]
    unfold processLine
    by_cases hb : l.trim = ""
    · simp [hb, List.enumFrom]
    · cases hd : decode l.trim with
      | none => simp [hb, hd, List.enumFrom]
      | some ev => simp [hb, hd, List.enumFrom]

theorem parseLines_nodes (decode : String → Option TraceEvent) (st : ParsedSt)
    (i : Nat) (ls : List String) :
    (parseLines decode st i ls).nodes =
      (decodedEvents decode ls).foldl applyEvent st.nodes := by
  induction ls generalizing st i with
  | nil => simp [parseLines, decodedEvents]
  | cons l ls ih =>
    rw [parseLines, ih]
    unfold processLine decodedEvents
    by_cases hb : l.trim = ""
    · simp [hb, decodedEvents]
    · cases hd : decode l.trim with
      | none => simp [hb, hd, decodedEvents]
      | some ev => simp [hb, hd, decodedEvents]

theorem parseLines_counts (decode : String → Option TraceEvent) (st : ParsedSt)
    (i : Nat) (ls : List String) :
    (parseLines decode st i ls).counts =
      (decodedEvents decode ls).foldl countEvent st.counts := by
  induction ls generalizing st i with
  | nil => simp [parseLines, decodedEvents]
  | cons l ls ih =>
    rw [parseLines, ih]
    unfold processLine decodedEvents
    by_cases hb : l.trim = ""
    · simp [hb, decodedEvents]
    · cases hd : decode l.trim with
      | none => simp [hb, hd, decodedEvents]
      | some ev => simp [hb, hd, decodedEvents]

theorem decodedEvents_filter (decode : String → Option TraceEvent) (lines : List String) :
    decodedEvents decode
        (lines.filter (fun l => l.trim == "" || (decode l.trim).isSome)) =
      decodedEvents decode lines := by
  induction lines with
  | nil => rfl
  | cons l ls ih =>
    by_cases hb : l.trim = ""
    · simp [decodedEvents, List.filter_cons, hb] at ih ⊢
      exact ih
    · cases hd : decode l.trim with
      | none =>
        simp [decodedEvents, List.filter_cons, hb, hd] at ih ⊢
        exact ih
      | some ev =>
        simp [decodedEvents, List.filter_cons, hb, hd] at ih ⊢
        exact ih

/-- C6: every line that fails to decode is recorded as a decode error keyed by
its (1-based) line number and skipped; ingestion continues, and the built node
map and counts equal those built from the well-formed lines alone. -/
theorem c6_malformed_lines_skipped (decode : String → Option TraceEvent)
    (lines : List String) :
    (parseJSONL decode lines).nodes =
        (parseJSONL decode
          (lines.filter (fun l => l.trim == "" || (decode l.trim).isSome))).nodes ∧
      (parseJSONL decode lines).counts =
        (parseJSONL decode
          (lines.filter (fun l => l.trim == "" || (decode l.trim).isSome))).counts ∧
      (parseJSONL decode lines).errors =
        lines.enum.filterMap (fun p =>
          if p.2.trim = "" then none
          else if (decode p.2.trim).isSome then none else some (p.1 + 1)) := by
  unfold parseJSONL
  refine ⟨?_, ?_, ?_⟩
  · rw [parseLines_nodes, parseLines_nodes, decodedEvents_filter]
  · rw [parseLines_counts, parseLines_counts, decodedEvents_filter]
  · rw [parseLines_errors]
    simp [List.enum]

/-! ### Merge characterization -/

theorem mem_pushAll_iff {a : String} {cs ls : List String} :
    a ∈ pushAll cs ls ↔ a ∈ cs ∨ a ∈ ls := by
  constructor
  · intro h
    induction ls generalizing cs with
    | nil => exact Or.inl h
    | cons l ls ih =>
      simp only [pushAll, List.foldl_cons] at h
      rcases @ih (if l ∈ cs then cs else cs ++ [l]) h with h' | h'
      · by_cases hl : l ∈ cs
        · rw [if_pos hl] at h'
          exact Or.inl h'
        · rw [if_neg hl] at h'
          rcases List.mem_append.mp h' with h'' | h''
          · exact Or.inl h''
          · simp at h''
            subst h''
            exact Or.inr (List.mem_cons_self _ _)
      · exact Or.inr (List.mem_cons_of_mem _ h')
  · intro h
    rcases h with h | h
    · exact mem_pushAll_mono ls h
    · exact mem_pushAll_of_mem cs h

theorem mem_firstOccur_iff {a : String} {l : List String} :
    a ∈ firstOccur l ↔ a ∈ l := by
  have h : firstOccur l = pushAll [] l := rfl
  rw [h, mem_pushAll_iff]
  simp

theorem pushAll_nodup {cs : List String} (ls : List String) (h : cs.Nodup) :
    (pushAll cs ls).Nodup := by
  induction ls generalizing cs with
  | nil => exact h
  | cons l ls ih =>
    simp only [pushAll, List.foldl_cons]
    apply ih
    by_cases hl : l ∈ cs
    · simpa [hl]
    · simp [hl, List.nodup_append, h]

theorem lookupN_isSome_iff_mem_keys {m : NodeMap} {q : String} :
    (∃ n, lookupN m q = some n) ↔ q ∈ keysN m := by
  induction m with
  | nil => simp [lookupN, keysN]
  | cons p rest ih =>
    by_cases hp : p.1 = q
    · simp [lookupN, keysN, hp]
    · simp only [lookupN, keysN, List.map_cons, List.mem_cons, hp, if_neg, ite_false]
      rw [show (List.map (fun x => x.1) rest) = keysN rest from rfl] at *
      constructor
      · intro hh
        exact Or.inr (ih.mp hh)
      · intro hh
        rcases hh with hh | hh
        · exact absurd hh.symm hp
        · exact ih.mpr hh

theorem lookupN_filterMap_keyed (keys : List String) (f : String → Option TreeNode)
    (q : String) :
    lookupN (keys.filterMap (fun k => (f k).map (fun n => (k, n)))) q =
      if q ∈ keys then f q else none := by
  induction keys with
  | nil => simp [lookupN]
  | cons k ks ih =>
    rw [List.filterMap_cons]
    cases hf : f k with
    | none =>
      simp only [Option.map_none']
      rw [ih]
      by_cases hq : q = k
      · subst hq
        by_cases hmem : q ∈ ks <;> simp [hmem, hf]
      · simp [List.mem_cons, hq]
    | some n =>
      simp only [Option.map_some']
      by_cases hq : q = k
      · subst hq
        simp [lookupN, hf]
      · simp only [lookupN]
        rw [if_neg (fun h : k = q => hq h.symm), ih]
        simp [List.mem_cons, hq]

theorem mergeIndexes_nodes_eq (a b : TraceIndex) :
    (mergeIndexes a b).nodes =
      (firstOccur (keysN a.nodes ++ keysN b.nodes)).filterMap
        (fun key => (mergedNodeAt a b key).map (fun n => (key, n))) := by
  unfold mergeIndexes mergedNodeAt
  simp only []
  congr 1
  funext key
  cases h : (lookupN a.nodes key).or (lookupN b.nodes key) <;> simp [h]

theorem lookupN_mergeIndexes (a b : TraceIndex) (q : String) :
    lookupN (mergeIndexes a b).nodes q = mergedNodeAt a b q := by
  rw [mergeIndexes_nodes_eq, lookupN_filterMap_keyed]
  by_cases hq : q ∈ firstOccur (keysN a.nodes ++ keysN b.nodes)
  · rw [if_pos hq]
  · rw [if_neg hq]
    rw [mem_firstOccur_iff, List.mem_append] at hq
    push_neg at hq
    have ha : lookupN a.nodes q = none := by
      cases hl : lookupN a.nodes q with
      | none => rfl
      | some n => exact absurd (lookupN_isSome_iff_mem_keys.mp ⟨n, hl⟩) hq.1
    have hb : lookupN b.nodes q = none := by
      cases hl : lookupN b.nodes q with
      | none => rfl
      | some n => exact absurd (lookupN_isSome_iff_mem_keys.mp ⟨n, hl⟩) hq.2
    simp [mergedNodeAt, ha, hb]

/-- C3: in a merged index, a path present only in A carries A's
status/reason/pattern in the primary slot with the B slot `unknown`/unset; a
path present only in B carries B's values in the B slot with the primary slot
`unknown`/unset; a path present in both carries A's values in the primary
slot and B's in the B slot. -/
theorem c3_merge_slots (a b : TraceIndex) (q : String) :
    (∀ na, lookupN a.nodes q = some na → lookupN b.nodes q = none →
      ∃ n, lookupN (mergeIndexes a b).nodes q = some n ∧
        n.meta.status = na.meta.status ∧ n.meta.reason = na.meta.reason ∧
        n.meta.pat = na.meta.pat ∧ n.meta.statusB = some .unknown ∧
        n.meta.reasonB = none ∧ n.meta.patternB = none) ∧
    (∀ nb, lookupN a.nodes q = none → lookupN b.nodes q = some nb →
      ∃ n, lookupN (mergeIndexes a b).nodes q = some n ∧
        n.meta.status = .unknown ∧ n.meta.reason = none ∧ n.meta.pat = none ∧
        n.meta.statusB = some nb.meta.status ∧ n.meta.reasonB = nb.meta.reason ∧
        n.meta.patternB = nb.meta.pat) ∧
    (∀ na nb, lookupN a.nodes q = some na → lookupN b.nodes q = some nb →
      ∃ n, lookupN (mergeIndexes a b).nodes q = some n ∧
        n.meta.status = na.meta.status ∧ n.meta.reason = na.meta.reason ∧
        n.meta.pat = na.meta.pat ∧ n.meta.statusB = some nb.meta.status ∧
        n.meta.reasonB = nb.meta.reason ∧ n.meta.patternB = nb.meta.pat) := by
  refine ⟨?_, ?_, ?_⟩
  · intro na ha hb
    rw [lookupN_mergeIndexes]
    simp [mergedNodeAt, ha, hb, Option.or]
  · intro nb ha hb
    rw [lookupN_mergeIndexes]
    simp [mergedNodeAt, ha, hb, Option.or]
  · intro na nb ha hb
    rw [lookupN_mergeIndexes]
    simp [mergedNodeAt, ha, hb, Option.or]

/-- C3 witness: the slot layout realized on concrete indexes, at an A-only
path, a B-only path and a shared path. -/
theorem c3_merge_slots_witness :
    (∃ n, lookupN (mergeIndexes fixA fixB).nodes "onlyA" = some n ∧
        n.meta.status = (wNode "onlyA" .included none none []).meta.status ∧
        n.meta.reason = (wNode "onlyA" .included none none []).meta.reason ∧
        n.meta.pat = (wNode "onlyA" .included none none []).meta.pat ∧
        n.meta.statusB = some .unknown ∧
        n.meta.reasonB = none ∧ n.meta.patternB = none) ∧
    (∃ n, lookupN (mergeIndexes fixA fixB).nodes "onlyB" = some n ∧
        n.meta.status = .unknown ∧ n.meta.reason = none ∧ n.meta.pat = none ∧
        n.meta.statusB = some (wNode "onlyB" .skipped (some "rb") none []).meta.status ∧
        n.meta.reasonB = (wNode "onlyB" .skipped (some "rb") none []).meta.reason ∧
        n.meta.patternB = (wNode "onlyB" .skipped (some "rb") none []).meta.pat) ∧
    (∃ n, lookupN (mergeIndexes fixA fixB).nodes "shared" = some n ∧
        n.meta.status = (wNode "shared" .ignored (some "ra") (some "pa") []).meta.status ∧
        n.meta.reason = (wNode "shared" .ignored (some "ra") (some "pa") []).meta.reason ∧
        n.meta.pat = (wNode "shared" .ignored (some "ra") (some "pa") []).meta.pat ∧
        n.meta.statusB = some (wNode "shared" .included none none []).meta.status ∧
        n.meta.reasonB = (wNode "shared" .included none none []).meta.reason ∧
        n.meta.patternB = (wNode "shared" .included none none []).meta.pat) := by
  refine ⟨?_, ?_, ?_⟩
  · exact (c3_merge_slots fixA fixB "onlyA").1 _ (by decide) (by decide)
  · exact (c3_merge_slots fixA fixB "onlyB").2.1 _ (by decide) (by decide)
  · exact (c3_merge_slots fixA fixB "shared").2.2 _ _ (by decide) (by decide)

/-- C2 counterexample: for the root path, present in both fixture indexes with
different children, the merged node's children list is A's list alone, not
the deduplicated union of both sides' lists. -/
theorem c2_counterexample :
    (lookupN (mergeIndexes fixA fixB).nodes ".").map (·.children) =
        some ["onlyA", "shared"] ∧
      (lookupN fixA.nodes ".").map (·.children) = some ["onlyA", "shared"] ∧
      (lookupN fixB.nodes ".").map (·.children) = some ["onlyB", "shared"] ∧
      dedupUnion ["onlyA", "shared"] ["onlyB", "shared"] =
        ["onlyA", "shared", "onlyB"] ∧
      (["onlyA", "shared"] : List String) ≠ ["onlyA", "shared", "onlyB"] := by
  refine ⟨by decide, by decide, by decide, by decide, by decide⟩

/-- C2 (amended): the merged node's children list is copied from the base
side — A's children when the path is present in A, else B's children; the
other side's children are not unioned in. -/
theorem c2_children_from_base (a b : TraceIndex) (q : String) :
    (∀ na, lookupN a.nodes q = some na →
      ∃ n, lookupN (mergeIndexes a b).nodes q = some n ∧ n.children = na.children) ∧
    (∀ nb, lookupN a.nodes q = none → lookupN b.nodes q = some nb →
      ∃ n, lookupN (mergeIndexes a b).nodes q = some n ∧ n.children = nb.children) := by
  constructor
  · intro na ha
    rw [lookupN_mergeIndexes]
    simp [mergedNodeAt, ha, Option.or]
  · intro nb ha hb
    rw [lookupN_mergeIndexes]
    simp [mergedNodeAt, ha, hb, Option.or]

/-- C2 amended witness: realized at a concrete both-sides path and a concrete
B-only path. -/
theorem c2_children_from_base_witness :
    (∃ n, lookupN (mergeIndexes fixA fixB).nodes "." = some n ∧
      n.children = (wNode "." .unknown none none ["onlyA", "shared"]).children) ∧
    (∃ n, lookupN (mergeIndexes fixA fixB).nodes "onlyB" = some n ∧
      n.children = (wNode "onlyB" .skipped (some "rb") none []).children) := by
  constructor
  · exact (c2_children_from_base fixA fixB ".").1 _ (by decide)
  · exact (c2_children_from_base fixA fixB "onlyB").2 _ (by decide) (by decide)

/-- C4 counterexample: merging two concrete indexes whose root sentinels
differ does not fail — it produces a full merged index (both sides' nodes
present, counts summed, root id taken from A), so no structural-mismatch
abort exists. -/
theorem c4_counterexample :
    fixA.rootId ≠ fixRootB.rootId ∧
      (mergeIndexes fixA fixRootB).rootId = "." ∧
      (lookupN (mergeIndexes fixA fixRootB).nodes "root2").isSome = true ∧
      (lookupN (mergeIndexes fixA fixRootB).nodes "onlyA").isSome = true ∧
      (mergeIndexes fixA fixRootB).counts =
        { included := 2, ignored := 1, skipped := 0 } := by
  refine ⟨by decide, by decide, by decide, by decide, by decide⟩

/-- C4 (amended): `mergeIndexes` performs no root-sentinel comparison and
never aborts: for every pair of indexes it returns a composite whose root id
is A's, whose counts are the element-wise sums, and whose node set is the
union of both key sets. -/
theorem c4_merge_total (a b : TraceIndex) :
    (mergeIndexes a b).rootId = a.rootId ∧
      (mergeIndexes a b).counts =
        { included := a.counts.included + b.counts.included
          ignored := a.counts.ignored + b.counts.ignored
          skipped := a.counts.skipped + b.counts.skipped } ∧
      ∀ q, (lookupN (mergeIndexes a b).nodes q).isSome =
        ((lookupN a.nodes q).isSome || (lookupN b.nodes q).isSome) := by
  refine ⟨rfl, rfl, ?_⟩
  intro q
  rw [lookupN_mergeIndexes]
  unfold mergedNodeAt
  cases ha : lookupN a.nodes q <;> cases hb : lookupN b.nodes q <;>
    simp [ha, hb, Option.or]

/-! ### C1: linking structure of the built map -/

theorem toParentPath_ne_empty {p : String} (h : p ≠ ROOT_ID) : toParentPath p ≠ "" := by
  unfold toParentPath
  rw [if_neg h]
  cases hls : lastSlash p.toList with
  | none => exact (by decide : ROOT_ID ≠ "")
  | some idx =>
    simp only []
    by_cases hp : String.mk (p.toList.take idx) = ""
    · rw [if_pos hp]
      exact (by decide : ROOT_ID ≠ "")
    · rw [if_neg hp]
      exact hp

theorem initNodes_lookup (q : String) :
    lookupN initNodes q =
      if ROOT_ID = q then some (freshNode ROOT_ID .dir) else none := rfl

theorem x0_children (q : String) :
    (match lookupN initNodes q with | some n => n.children | none => []) = [] := by
  rw [initNodes_lookup]
  by_cases hq : ROOT_ID = q <;> simp [hq, freshNode]

/-- C1 counterexample: ingesting the single event `include "a/b"` creates the
placeholder `"a"` in the node map, but `"a"` is linked into no parent (the
builder links only one level), so it is not reachable from the root. -/
theorem c1_counterexample :
    (lookupN (buildNodes [TraceEvent.incl "a/b" .file]) "a" =
        some { freshNode "a" .dir with children := ["a/b"] }) ∧
      ¬ Reaches (buildNodes [TraceEvent.incl "a/b" .file]) ROOT_ID "a" := by
  constructor
  · decide
  · intro h
    have aux : ∀ z, Reaches (buildNodes [TraceEvent.incl "a/b" .file]) ROOT_ID z →
        z = ROOT_ID := by
      intro z hz
      induction hz with
      | refl => rfl
      | step hab hlk hc ih =>
        subst ih
        have hroot : lookupN (buildNodes [TraceEvent.incl "a/b" .file]) ROOT_ID =
            some (freshNode ROOT_ID .dir) := by decide
        rw [hroot] at hlk
        cases hlk
        simp [freshNode] at hc
    have ha := aux "a" h
    exact absurd ha (by decide)

/-- C1 (amended): for every event stream, the builder creates the node at each
event path and its *immediate* parent (as an unknown-status dir placeholder
when missing), linking the node into that parent's children exactly once —
deeper ancestors are not created or linked, so nodes need not be reachable
from the root. Every children link in the final map points from a node to a
path whose `toParentPath` is that node and whose measure is strictly larger,
so no node has two parents and no cycle exists; and the root always exists. -/
theorem c1_immediate_parent_links (L : List TraceEvent) :
    (∃ n, lookupN (buildNodes L) ROOT_ID = some n) ∧
      (∀ e ∈ L, e.tag ≠ .summary → normalizePath e.path ≠ "" →
        (∃ n, lookupN (buildNodes L) (normalizePath e.path) = some n) ∧
          (normalizePath e.path ≠ ROOT_ID →
            ∃ pn, lookupN (buildNodes L) (toParentPath (normalizePath e.path)) = some pn ∧
              pn.children.count (normalizePath e.path) = 1)) ∧
      (∀ q n c, lookupN (buildNodes L) q = some n → c ∈ n.children →
        toParentPath c = q ∧ c ≠ ROOT_ID ∧ pathMeasure q < pathMeasure c) := by
  refine ⟨?_, ?_, ?_⟩
  · rw [lookupN_buildNodes, initNodes_lookup]
    simp only [ROOT_ID, if_pos rfl]
    unfold mkFinal
    by_cases ht : touched "." L = false
    · rw [if_pos ht]
      exact ⟨_, rfl⟩
    · rw [if_neg ht]
      exact ⟨_, rfl⟩
  · intro e he hs hp
    have hnode : touchesNode (normalizePath e.path) e = true := by
      simp [touchesNode, hs, hp]
    have htch : touched (normalizePath e.path) L = true := by
      apply List.any_eq_true.mpr
      exact ⟨e, he, by simp [hnode]⟩
    constructor
    · rw [lookupN_buildNodes, mkFinal_touched htch]
      exact ⟨_, rfl⟩
    · intro hproot
      have hq0 : toParentPath (normalizePath e.path) ≠ "" := toParentPath_ne_empty hproot
      have hlinkp : touchesLink (toParentPath (normalizePath e.path)) e = true := by
        simp [touchesLink, hs, hp, hq0]
        exact Ne.symm (toParentPath_ne (normalizePath e.path))
      have htchp : touched (toParentPath (normalizePath e.path)) L = true := by
        apply List.any_eq_true.mpr
        exact ⟨e, he, by simp [hlinkp]⟩
      rw [lookupN_buildNodes, mkFinal_touched htchp]
      refine ⟨_, rfl, ?_⟩
      have hmem : normalizePath e.path ∈
          linksOf (toParentPath (normalizePath e.path)) L := by
        apply List.mem_filterMap.mpr
        exact ⟨e, he, by simp [hlinkp]⟩
      have hmem' : normalizePath e.path ∈
          (mkRec (toParentPath (normalizePath e.path)) 
            (lookupN initNodes (toParentPath (normalizePath e.path))) L).children := by
        simp only [mkRec]
        rw [x0_children]
        exact mem_pushAll_of_mem [] hmem
      have hnodup : (mkRec (toParentPath (normalizePath e.path))
          (lookupN initNodes (toParentPath (normalizePath e.path))) L).children.Nodup := by
        simp only [mkRec]
        rw [x0_children]
        exact pushAll_nodup _ List.nodup_nil
      exact List.count_eq_one_of_mem hnodup hmem'
  · intro q n c hlk hc
    rw [lookupN_buildNodes] at hlk
    by_cases ht : touched q L = false
    · rw [mkFinal_untouched ht, initNodes_lookup] at hlk
      by_cases hq : ROOT_ID = q
      · rw [if_pos hq] at hlk
        cases hlk
        simp [freshNode] at hc
      · rw [if_neg hq] at hlk
        exact absurd hlk (by simp)
    · have ht' : touched q L = true := by
        cases htt : touched q L
        · exact absurd htt ht
        · rfl
      rw [mkFinal_touched ht'] at hlk
      cases hlk
      simp only [mkRec] at hc
      rw [x0_children] at hc
      rcases mem_pushAll_iff.mp hc with hc' | hc'
      · simp at hc'
      · obtain ⟨e, heL, hif⟩ := List.mem_filterMap.mp hc'
        by_cases hl : touchesLink q e = true
        · rw [if_pos hl] at hif
          cases hif
          unfold touchesLink at hl
          simp only [Bool.and_eq_true, bne_iff_ne, beq_iff_eq] at hl
          obtain ⟨⟨⟨⟨hs', hp'⟩, hpq⟩, hpar⟩, hq0⟩ := hl
          have hcroot : normalizePath e.path ≠ ROOT_ID := by
            intro hr
            rw [hr] at hpar
            simp [toParentPath, ROOT_ID] at hpar
            exact hq0 hpar.symm
          refine ⟨hpar, hcroot, ?_⟩
          rw [← hpar]
          exact toParentPath_measure_lt hp' hcroot
        · rw [if_neg hl] at hif
          exact absurd hif (by simp)

/-- C1 amended witness: realized on the single-event stream
`include "a/b"` — the node and its immediate parent exist, the parent holds
the child exactly once, and the child link satisfies the parent/measure
facts. -/
theorem c1_immediate_parent_links_witness :
    (∃ n, lookupN (buildNodes [TraceEvent.incl "a/b" .file]) ROOT_ID = some n) ∧
      (∃ n, lookupN (buildNodes [TraceEvent.incl "a/b" .file]) "a/b" = some n) ∧
      (∃ pn, lookupN (buildNodes [TraceEvent.incl "a/b" .file]) "a" = some pn ∧
        pn.children.count "a/b" = 1) ∧
      (toParentPath "a/b" = "a" ∧ "a/b" ≠ ROOT_ID ∧
        pathMeasure "a" < pathMeasure "a/b") := by
  have h := c1_immediate_parent_links [TraceEvent.incl "a/b" .file]
  have hnorm : normalizePath "a/b" = "a/b" := by decide
  have hparent : toParentPath "a/b" = "a" := by decide
  have h2 := h.2.1 (TraceEvent.incl "a/b" .file) (List.mem_cons_self _ _)
    (by decide) (by decide)
  refine ⟨h.1, ?_, ?_, ?_⟩
  · have := h2.1
    rwa [show normalizePath (TraceEvent.incl "a/b" .file).path = "a/b" from by decide]
      at this
  · have := h2.2 (by decide)
    rwa [show normalizePath (TraceEvent.incl "a/b" .file).path = "a/b" from by decide,
      hparent] at this
  · exact h.2.2 "a" { freshNode "a" .dir with children := ["a/b"] } "a/b" (by decide)
      (by decide)

/-! ### C9: child ordering -/

theorem insertLe_perm {α : Type} (le : α → α → Bool) (x : α) (l : List α) :
    (insertLe le x l).Perm (x :: l) := by
  induction l with
  | nil => exact List.Perm.refl _
  | cons y ys ih =>
    unfold insertLe
    by_cases h : le x y = true
    · rw [if_pos h]
    · rw [if_neg h]
      exact (ih.cons y).trans (List.Perm.swap x y ys)

theorem sortLe_perm {α : Type} (le : α → α → Bool) (l : List α) :
    (sortLe le l).Perm l := by
  induction l with
  | nil => exact List.Perm.refl _
  | cons x xs ih => exact (insertLe_perm le x (sortLe le xs)).trans (ih.cons x)

theorem insertLe_pairwise {α : Type} {le : α → α → Bool}
    (htot : ∀ a b, le a b = true ∨ le b a = true)
    (htr : ∀ a b c, le a b = true → le b c = true → le a c = true)
    (x : α) {l : List α} (h : l.Pairwise (fun u v => le u v = true)) :
    (insertLe le x l).Pairwise (fun u v => le u v = true) := by
  induction l with
  | nil => simp [insertLe]
  | cons y ys ih =>
    rw [List.pairwise_cons] at h
    obtain ⟨hy, hys⟩ := h
    unfold insertLe
    by_cases hxy : le x y = true
    · rw [if_pos hxy]
      refine List.Pairwise.cons ?_ (List.Pairwise.cons hy hys)
      intro z hz
      rcases List.mem_cons.mp hz with rfl | hz'
      · exact hxy
      · exact htr x y z hxy (hy z hz')
    · rw [if_neg hxy]
      have hyx : le y x = true := (htot x y).resolve_left hxy
      refine List.Pairwise.cons ?_ (ih hys)
      intro z hz
      have hz' : z ∈ x :: ys := ((insertLe_perm le x ys).mem_iff).mp hz
      rcases List.mem_cons.mp hz' with rfl | hz''
      · exact hyx
      · exact hy z hz''

theorem sortLe_pairwise {α : Type} {le : α → α → Bool}
    (htot : ∀ a b, le a b = true ∨ le b a = true)
    (htr : ∀ a b c, le a b = true → le b c = true → le a c = true)
    (l : List α) :
    (sortLe le l).Pairwise (fun u v => le u v = true) := by
  induction l with
  | nil => simp [sortLe]
  | cons x xs ih => exact insertLe_pairwise htot htr x ih

theorem localeCompare_le_iff (a b : String) :
    localeCompare a b ≤ 0 ↔
      ((lowerStr a).toList < (lowerStr b).toList ∨
        ((lowerStr a).toList = (lowerStr b).toList ∧
          (a.toList < b.toList ∨ a.toList = b.toList))) := by
  unfold localeCompare
  simp only [String.toList]
  rcases lt_trichotomy (lowerStr a).data (lowerStr b).data with h | h | h
  · simp [h, lt_asymm h]
  · rcases lt_trichotomy a.data b.data with h2 | h2 | h2
    · simp [h, h2, lt_asymm h2]
    · simp [h, h2]
    · have hne : a.data ≠ b.data := fun hh => absurd (hh ▸ h2) (lt_irrefl _)
      simp [h, h2, lt_asymm h2, hne]
  · have hne : (lowerStr a).data ≠ (lowerStr b).data :=
      fun hh => absurd (hh ▸ h) (lt_irrefl _)
    simp [lt_asymm h, h, hne]

theorem localeCompare_le_total (a b : String) :
    localeCompare a b ≤ 0 ∨ localeCompare b a ≤ 0 := by
  rw [localeCompare_le_iff, localeCompare_le_iff]
  rcases lt_trichotomy (lowerStr a).toList (lowerStr b).toList with h | h | h
  · exact Or.inl (Or.inl h)
  · rcases lt_trichotomy a.toList b.toList with h2 | h2 | h2
    · exact Or.inl (Or.inr ⟨h, Or.inl h2⟩)
    · exact Or.inl (Or.inr ⟨h, Or.inr h2⟩)
    · exact Or.inr (Or.inr ⟨h.symm, Or.inl h2⟩)
  · exact Or.inr (Or.inl h)

theorem localeCompare_le_trans {a b c : String}
    (h1 : localeCompare a b ≤ 0) (h2 : localeCompare b c ≤ 0) :
    localeCompare a c ≤ 0 := by
  rw [localeCompare_le_iff] at h1 h2 ⊢
  rcases h1 with h1 | ⟨h1e, h1t⟩
  · rcases h2 with h2 | ⟨h2e, _⟩
    · exact Or.inl (lt_trans h1 h2)
    · exact Or.inl (h2e ▸ h1)
  · rcases h2 with h2 | ⟨h2e, h2t⟩
    · exact Or.inl (h1e ▸ h2)
    · refine Or.inr ⟨h1e.trans h2e, ?_⟩
      rcases h1t with h1t | h1t
      · rcases h2t with h2t | h2t
        · exact Or.inl (lt_trans h1t h2t)
        · exact Or.inl (h2t ▸ h1t)
      · rcases h2t with h2t | h2t
        · exact Or.inl (h1t ▸ h2t)
        · exact Or.inr (h1t.trans h2t)

theorem compareAlpha_le_total (m : NodeMap) (a b : String) :
    compareAlpha m a b ≤ 0 ∨ compareAlpha m b a ≤ 0 := by
  unfold compareAlpha
  exact localeCompare_le_total _ _

theorem compareAlpha_le_trans (m : NodeMap) {a b c : String}
    (h1 : compareAlpha m a b ≤ 0) (h2 : compareAlpha m b c ≤ 0) :
    compareAlpha m a c ≤ 0 := by
  unfold compareAlpha at *
  exact localeCompare_le_trans h1 h2

theorem compareCost_le_iff (m : NodeMap) (stats : StatsMap) (metric : CostMetric)
    (a b : String) :
    compareCost m stats metric a b ≤ 0 ↔
      (costOf stats metric b < costOf stats metric a ∨
        (costOf stats metric a = costOf stats metric b ∧ compareAlpha m a b ≤ 0)) := by
  unfold compareCost
  by_cases h : costOf stats metric a = costOf stats metric b
  · rw [if_neg (fun hne => hne h)]
    simp [h]
  · rw [if_pos h]
    constructor
    · intro hle
      left
      omega
    · intro hor
      rcases hor with hlt | ⟨heq, _⟩
      · omega
      · exact absurd heq h

theorem compareCost_le_total (m : NodeMap) (stats : StatsMap) (metric : CostMetric)
    (a b : String) :
    compareCost m stats metric a b ≤ 0 ∨ compareCost m stats metric b a ≤ 0 := by
  rw [compareCost_le_iff, compareCost_le_iff]
  rcases lt_trichotomy (costOf stats metric a) (costOf stats metric b) with h | h | h
  · exact Or.inr (Or.inl h)
  · rcases compareAlpha_le_total m a b with h2 | h2
    · exact Or.inl (Or.inr ⟨h, h2⟩)
    · exact Or.inr (Or.inr ⟨h.symm, h2⟩)
  · exact Or.inl (Or.inl h)

theorem compareCost_le_trans (m : NodeMap) (stats : StatsMap) (metric : CostMetric)
    {a b c : String} (h1 : compareCost m stats metric a b ≤ 0)
    (h2 : compareCost m stats metric b c ≤ 0) :
    compareCost m stats metric a c ≤ 0 := by
  rw [compareCost_le_iff] at h1 h2 ⊢
  rcases h1 with h1 | ⟨h1e, h1a⟩
  · rcases h2 with h2 | ⟨h2e, _⟩
    · exact Or.inl (lt_trans h2 h1)
    · exact Or.inl (h2e ▸ h1)
  · rcases h2 with h2 | ⟨h2e, h2a⟩
    · exact Or.inl (h1e ▸ h2)
    · exact Or.inr ⟨h1e.trans h2e, compareAlpha_le_trans m h1a h2a⟩

theorem partitionChildren_go (m : NodeMap) (children : List String)
    (ds fs : List String) :
    children.foldl
        (fun acc cid =>
          if isDirLike m cid then (acc.1 ++ [cid], acc.2) else (acc.1, acc.2 ++ [cid]))
        (ds, fs) =
      (ds ++ children.filter (fun c => isDirLike m c),
        fs ++ children.filter (fun c => !(isDirLike m c))) := by
  induction children generalizing ds fs with
  | nil => simp
  | cons c cs ih =>
    rw [List.foldl_cons]
    by_cases h : isDirLike m c = true
    · rw [if_pos h, ih]
      simp [List.filter_cons, h]
    · have h' : isDirLike m c = false := by
        cases hh : isDirLike m c
        · rfl
        · exact absurd hh h
      rw [if_neg h, ih]
      simp [List.filter_cons, h']

theorem partitionChildren_eq (m : NodeMap) (children : List String) :
    partitionChildren m children =
      (children.filter (fun c => isDirLike m c),
        children.filter (fun c => !(isDirLike m c))) := by
  unfold partitionChildren
  rw [partitionChildren_go]
  simp

/-- C9: `orderChildren` always places the dir-like children (dangling id,
`kind == dir`, `status == skipped`, or having children) before the file-like
ones, preserving insertion order under `scan` and stably sorting each
partition under `alpha` (modelled case-insensitive locale comparison) and
`cost` (descending by the selected metric, alphabetical tie-break); on the
spec's example siblings the cost order is `c, a, b.txt`. -/
theorem c9_orderChildren (children : List String) (m : NodeMap)
    (stats : StatsMap) (metric : CostMetric) :
    (orderChildren children m .scan stats metric =
        children.filter (fun c => isDirLike m c) ++
          children.filter (fun c => !(isDirLike m c))) ∧
      (orderChildren children m .alpha stats metric =
        sortLe (fun a b => decide (compareAlpha m a b ≤ 0))
            (children.filter (fun c => isDirLike m c)) ++
          sortLe (fun a b => decide (compareAlpha m a b ≤ 0))
            (children.filter (fun c => !(isDirLike m c)))) ∧
      (orderChildren children m .cost stats metric =
        sortLe (fun a b => decide (compareCost m stats metric a b ≤ 0))
            (children.filter (fun c => isDirLike m c)) ++
          sortLe (fun a b => decide (compareCost m stats metric a b ≤ 0))
            (children.filter (fun c => !(isDirLike m c)))) ∧
      (∀ l : List String,
        (sortLe (fun a b => decide (compareAlpha m a b ≤ 0)) l).Perm l ∧
          (sortLe (fun a b => decide (compareAlpha m a b ≤ 0)) l).Pairwise
            (fun a b => compareAlpha m a b ≤ 0)) ∧
      (∀ l : List String,
        (sortLe (fun a b => decide (compareCost m stats metric a b ≤ 0)) l).Perm l ∧
          (sortLe (fun a b => decide (compareCost m stats metric a b ≤ 0)) l).Pairwise
            (fun a b => costOf stats metric b < costOf stats metric a ∨
              (costOf stats metric a = costOf stats metric b ∧ compareAlpha m a b ≤ 0))) ∧
      orderChildren ["b.txt", "a", "c"] exNodes .cost exStats .total =
        ["c", "a", "b.txt"] := by
  have htotA : ∀ a b : String,
      (decide (compareAlpha m a b ≤ 0)) = true ∨ (decide (compareAlpha m b a ≤ 0)) = true := by
    intro a b
    rcases compareAlpha_le_total m a b with h | h
    · exact Or.inl (by simpa using h)
    · exact Or.inr (by simpa using h)
  have htrA : ∀ a b c : String, (decide (compareAlpha m a b ≤ 0)) = true →
      (decide (compareAlpha m b c ≤ 0)) = true → (decide (compareAlpha m a c ≤ 0)) = true := by
    intro a b c h1 h2
    simp only [decide_eq_true_eq] at *
    exact compareAlpha_le_trans m h1 h2
  have htotC : ∀ a b : String, (decide (compareCost m stats metric a b ≤ 0)) = true ∨
      (decide (compareCost m stats metric b a ≤ 0)) = true := by
    intro a b
    rcases compareCost_le_total m stats metric a b with h | h
    · exact Or.inl (by simpa using h)
    · exact Or.inr (by simpa using h)
  have htrC : ∀ a b c : String, (decide (compareCost m stats metric a b ≤ 0)) = true →
      (decide (compareCost m stats metric b c ≤ 0)) = true →
      (decide (compareCost m stats metric a c ≤ 0)) = true := by
    intro a b c h1 h2
    simp only [decide_eq_true_eq] at *
    exact compareCost_le_trans m stats metric h1 h2
  refine ⟨?_, ?_, ?_, ?_, ?_, ?_⟩
  · unfold orderChildren
    rw [partitionChildren_eq]
  · unfold orderChildren
    rw [partitionChildren_eq]
  · unfold orderChildren
    rw [partitionChildren_eq]
  · intro l
    refine ⟨sortLe_perm _ l, ?_⟩
    have := sortLe_pairwise htotA htrA l
    exact this.imp (fun h => by simpa using h)
  · intro l
    refine ⟨sortLe_perm _ l, ?_⟩
    have := sortLe_pairwise htotC htrC l
    refine this.imp (fun h => ?_)
    have h' := (decide_eq_true_eq).mp h
    exact (compareCost_le_iff m stats metric _ _).mp h'
  · decide

/-! ### C10: the row-emission rule -/

theorem walk_eq_specWalkRows (m : NodeMap) (expanded : List String) (showExcluded : Bool)
    (query : String) (orderBy : OrderBy) (stats : StatsMap) (metric : CostMetric)
    (vfuel : Nat) :
    ∀ (wfuel : Nat) (n : TreeNode) (depth : Nat),
      walk m expanded showExcluded query orderBy stats metric vfuel wfuel n depth =
        specWalkRows m expanded showExcluded query orderBy stats metric vfuel wfuel n depth := by
  intro wfuel
  induction wfuel with
  | zero => intro n depth; rfl
  | succ f ih =>
    intro n depth
    have hfl : ∀ (cs : List String) (d : Nat),
        (cs.flatMap (fun cid =>
          match lookupN m cid with
          | some c => walk m expanded showExcluded query orderBy stats metric vfuel f c d
          | none => [])) =
        (cs.flatMap (fun cid =>
          match lookupN m cid with
          | some c => specWalkRows m expanded showExcluded query orderBy stats metric vfuel f c d
          | none => [])) := by
      intro cs d
      congr 1
      funext cid
      cases lookupN m cid with
      | some c => exact ih c d
      | none => rfl
    unfold walk specWalkRows
    by_cases hv : computeVisible m query showExcluded vfuel n = true
    · by_cases hq : query = ""
      · subst hq
        by_cases he : n.id ∈ expanded
        · simp [hv, he, hfl]
        · simp [hv, he]
      · simp [hv, hq, hfl]
    · have hv' : computeVisible m query showExcluded vfuel n = false := by
        cases hh : computeVisible m query showExcluded vfuel n
        · rfl
        · exact absurd hh hv
      simp [hv']

/-- C10: `buildVisibleList` produces exactly the row list of the claimed
emission rule — a node is emitted iff its visibility is true, children are
recursed into only under an active search or when the node is expanded (the
root itself emits no row and its children are always walked) — and a visible,
collapsed node with no active search contributes exactly its own row. -/
theorem c10_row_emission_rule :
    (∀ (idx : TraceIndex) (expanded : List String) (showExcluded : Bool)
      (search : String) (orderBy : OrderBy) (stats : StatsMap) (metric : CostMetric)
      (vfuel wfuel : Nat),
      buildVisibleList idx expanded showExcluded search orderBy stats metric vfuel wfuel =
        specVisibleList idx expanded showExcluded search orderBy stats metric vfuel wfuel) ∧
    (∀ (m : NodeMap) (expanded : List String) (showExcluded : Bool) (query : String)
      (orderBy : OrderBy) (stats : StatsMap) (metric : CostMetric)
      (vfuel wfuel depth : Nat) (n : TreeNode),
      computeVisible m query showExcluded vfuel n = true → query = "" →
        expanded.contains n.id = false →
        walk m expanded showExcluded query orderBy stats metric vfuel (wfuel + 1) n depth =
          [{ node := n
             depth := depth
             hasChildren := decide (0 < n.children.length)
             isExpanded := expanded.contains n.id
             dimmed := showExcluded &&
               (n.meta.status == .ignored || n.meta.status == .skipped) }]) := by
  constructor
  · intro idx expanded showExcluded search orderBy stats metric vfuel wfuel
    unfold buildVisibleList specVisibleList
    cases lookupN idx.nodes idx.rootId with
    | none => rfl
    | some root =>
      simp only []
      congr 1
      funext cid
      cases lookupN idx.nodes cid with
      | some c => exact walk_eq_specWalkRows _ _ _ _ _ _ _ _ wfuel c 0
      | none => rfl
  · intro m expanded showExcluded query orderBy stats metric vfuel wfuel depth n hv hq he
    subst hq
    have he' : n.id ∉ expanded := by simpa using he
    unfold walk
    simp [hv, he']

/-- C10 witness: the rule equality at a concrete configuration and the
one-row contribution of a concrete collapsed, visible node. -/
theorem c10_row_emission_rule_witness :
    (buildVisibleList fixA [] false "" .scan [] .total 5 5 =
      specVisibleList fixA [] false "" .scan [] .total 5 5) ∧
    walk fixA.nodes [] true "" .scan [] .total 5 1
        (wNode "onlyA" .included none none []) 3 =
      [{ node := wNode "onlyA" .included none none []
         depth := 3
         hasChildren := false
         isExpanded := false
         dimmed := false }] := by
  constructor
  · exact c10_row_emission_rule.1 fixA [] false "" .scan [] .total 5 5
  · have h := c10_row_emission_rule.2 fixA.nodes [] true "" .scan [] .total 5 0 3
      (wNode "onlyA" .included none none []) (by decide) rfl (by decide)
    rw [h]
    decide

/-! ### C8: search force-reveals matches and their ancestors -/

theorem mem_orderChildren {c : String} (children : List String) (m : NodeMap)
    (ob : OrderBy) (stats : StatsMap) (metric : CostMetric) :
    c ∈ orderChildren children m ob stats metric ↔ c ∈ children := by
  have hpart : ∀ x : String, x ∈ children.filter (fun y => isDirLike m y) ∨
      x ∈ children.filter (fun y => !(isDirLike m y)) ↔ x ∈ children := by
    intro x
    constructor
    · intro h
      rcases h with h | h <;> exact (List.mem_filter.mp h).1
    · intro h
      by_cases hd : isDirLike m x = true
      · exact Or.inl (List.mem_filter.mpr ⟨h, hd⟩)
      · refine Or.inr (List.mem_filter.mpr ⟨h, ?_⟩)
        simp [hd]
  unfold orderChildren
  rw [partitionChildren_eq]
  cases ob with
  | scan =>
    simp only [List.mem_append]
    exact hpart c
  | alpha =>
    simp only [List.mem_append, (sortLe_perm _ _).mem_iff]
    exact hpart c
  | cost =>
    simp only [List.mem_append, (sortLe_perm _ _).mem_iff]
    exact hpart c

theorem vis_of_chain {m : NodeMap} {query : String} (sE : Bool) (hq : query ≠ "") :
    ∀ {n z : TreeNode} {bs : List TreeNode}, ChainTo m n bs z →
      matchesSearch query z = true → ∀ vf, bs.length < vf →
      computeVisible m query sE vf n = true := by
  intro n z bs hc
  induction hc with
  | refl a =>
    intro hm vf hvf
    cases vf with
    | zero => exact absurd hvf (Nat.not_lt_zero _)
    | succ f =>
      simp only [computeVisible]
      rw [if_pos hq]
      exact (Bool.or_eq_true _ _).mpr (Or.inl hm)
  | step cid b hcid hlk hrest ih =>
    intro hm vf hvf
    cases vf with
    | zero => exact absurd hvf (Nat.not_lt_zero _)
    | succ f =>
      have hb : computeVisible m query sE f b = true := by
        apply ih hm
        simp only [List.length_cons] at hvf
        omega
      simp only [computeVisible]
      rw [if_pos hq]
      refine (Bool.or_eq_true _ _).mpr (Or.inr ?_)
      refine List.any_eq_true.mpr ⟨cid, hcid, ?_⟩
      simp only [hlk]
      exact hb

theorem walk_emits {m : NodeMap} {expanded : List String} {sE : Bool} {query : String}
    {ob : OrderBy} {stats : StatsMap} {metric : CostMetric} {vfuel : Nat}
    (hq : query ≠ "") :
    ∀ {n z : TreeNode} {bs : List TreeNode}, ChainTo m n bs z →
      matchesSearch query z = true → bs.length < vfuel →
      ∀ wf depth, bs.length < wf → ∀ x ∈ n :: bs,
        ∃ r ∈ walk m expanded sE query ob stats metric vfuel wf n depth, r.node = x := by
  intro n z bs hc
  induction hc with
  | refl nn =>
    intro hm hvf wf depth hwf x hx
    cases wf with
    | zero => exact absurd hwf (Nat.not_lt_zero _)
    | succ w =>
      have hvis : computeVisible m query sE vfuel nn = true :=
        vis_of_chain sE hq (ChainTo.refl nn) hm vfuel hvf
      simp only [List.mem_cons, List.not_mem_nil, or_false] at hx
      subst hx
      unfold walk
      rw [if_pos hvis]
      exact ⟨_, List.mem_cons_self _ _, rfl⟩
  | step cid b hcid hlk hrest ih =>
    rename_i a0 z0 bs0
    intro hm hvf wf depth hwf x hx
    cases wf with
    | zero => exact absurd hwf (Nat.not_lt_zero _)
    | succ w =>
      have hvis : computeVisible m query sE vfuel a0 = true :=
        vis_of_chain sE hq (ChainTo.step cid b hcid hlk hrest) hm vfuel hvf
      unfold walk
      rw [if_pos hvis]
      rcases List.mem_cons.mp hx with rfl | hx'
      · exact ⟨_, List.mem_cons_self _ _, rfl⟩
      · simp only [List.length_cons] at hvf hwf
        obtain ⟨r, hr, hrn⟩ := ih hm (by omega) w (depth + 1) (by omega) x hx'
        refine ⟨r, ?_, hrn⟩
        apply List.mem_cons_of_mem
        have hdq : decide (query ≠ "") = true := by simp [hq]
        rw [hdq, Bool.true_or, if_pos rfl]
        apply List.mem_flatMap.mpr
        refine ⟨cid, (mem_orderChildren _ _ _ _ _).mpr hcid, ?_⟩
        simp only [hlk]
        exact hr

theorem walk_visible {m : NodeMap} {expanded : List String} {sE : Bool} {query : String}
    {ob : OrderBy} {stats : StatsMap} {metric : CostMetric} {vfuel : Nat} :
    ∀ {wf : Nat} {n : TreeNode} {depth : Nat} {r : VisibleRow},
      r ∈ walk m expanded sE query ob stats metric vfuel wf n depth →
      computeVisible m query sE vfuel r.node = true := by
  intro wf
  induction wf with
  | zero => intro n depth r hr; simp [walk] at hr
  | succ w ih =>
    intro n depth r hr
    unfold walk at hr
    by_cases hv : computeVisible m query sE vfuel n = true
    · rw [if_pos hv] at hr
      rcases List.mem_cons.mp hr with rfl | hr'
      · exact hv
      · by_cases hcond : (decide (query ≠ "") || expanded.contains n.id) = true
        · rw [if_pos hcond] at hr'
          obtain ⟨cid, hmem, hrw⟩ := List.mem_flatMap.mp hr'
          cases hlk : lookupN m cid with
          | some c =>
            simp only [hlk] at hrw
            exact ih hrw
          | none => simp [hlk] at hrw
        · rw [if_neg hcond] at hr'
          simp at hr'
    · rw [if_neg hv] at hr
      simp at hr

theorem vis_to_chain {m : NodeMap} {query : String} {sE : Bool} (hq : query ≠ "") :
    ∀ {vf : Nat} {n : TreeNode}, computeVisible m query sE vf n = true →
      ∃ bs t, ChainTo m n bs t ∧ matchesSearch query t = true := by
  intro vf
  induction vf with
  | zero => intro n h; simp [computeVisible] at h
  | succ f ih =>
    intro n h
    simp only [computeVisible] at h
    rw [if_pos hq] at h
    rcases (Bool.or_eq_true _ _).mp h with hm | hch
    · exact ⟨[], n, ChainTo.refl n, hm⟩
    · obtain ⟨cid, hmem, hcond⟩ := List.any_eq_true.mp hch
      cases hlk : lookupN m cid with
      | some c =>
        simp only [hlk] at hcond
        obtain ⟨bs, t, hcht, hmt⟩ := ih hcond
        exact ⟨c :: bs, t, ChainTo.step cid c hmem hlk hcht, hmt⟩
      | none => simp [hlk] at hcond

/-- C8: with a non-empty normalized search, every node connected to the root by
a chain of child links whose chain end matches the query — in particular every
matching node together with every ancestor on the chain below the root —
appears in the output of `buildVisibleList`, regardless of the expanded set and
of each node's own status or `showExcluded`; conversely every emitted row's
node heads a chain of child links ending at a matching node (possibly itself),
so visibility never leaks into subtrees that contain no match. -/
theorem c8_search_force_reveals (idx : TraceIndex) (expanded : List String)
    (showExcluded : Bool) (search : String) (ob : OrderBy) (stats : StatsMap)
    (metric : CostMetric) (vfuel wfuel : Nat) (root z : TreeNode)
    (chain : List TreeNode)
    (hroot : lookupN idx.nodes idx.rootId = some root)
    (hq : queryOf search ≠ "")
    (hchain : ChainTo idx.nodes root chain z)
    (hne : chain ≠ [])
    (hmatch : matchesSearch (queryOf search) z = true)
    (hvf : chain.length ≤ vfuel) (hwf : chain.length ≤ wfuel) :
    (∀ x ∈ chain,
      ∃ r ∈ buildVisibleList idx expanded showExcluded search ob stats metric vfuel wfuel,
        r.node = x) ∧
    (∀ r ∈ buildVisibleList idx expanded showExcluded search ob stats metric vfuel wfuel,
      ∃ bs t, ChainTo idx.nodes r.node bs t ∧ matchesSearch (queryOf search) t = true) := by
  constructor
  · intro x hx
    cases hchain with
    | refl => exact absurd rfl hne
    | step cid b hcid hlk hrest =>
      rename_i bs0
      simp only [List.length_cons] at hvf hwf
      obtain ⟨r, hr, hrn⟩ :=
        @walk_emits idx.nodes expanded showExcluded (queryOf search) ob stats metric vfuel
          hq b z bs0 hrest hmatch (by omega) wfuel 0 (by omega) x hx
      refine ⟨r, ?_, hrn⟩
      unfold buildVisibleList
      simp only [hroot]
      apply List.mem_flatMap.mpr
      refine ⟨cid, (mem_orderChildren _ _ _ _ _).mpr hcid, ?_⟩
      simp only [hlk]
      exact hr
  · intro r hr
    unfold buildVisibleList at hr
    simp only [hroot] at hr
    obtain ⟨cid, hmem, hrw⟩ := List.mem_flatMap.mp hr
    cases hlk : lookupN idx.nodes cid with
    | some c =>
      simp only [hlk] at hrw
      exact vis_to_chain hq (walk_visible hrw)
    | none => simp [hlk] at hrw

/-- Witness for C8: in the fixture index, searching for "b" with nothing
expanded and `showExcluded := false` emits rows for the ignored directory "a"
and the matching leaf "a/b", and every emitted row heads a chain to a match. -/
theorem c8_search_force_reveals_witness :
    (∀ x ∈ [fixSA, fixSAB],
      ∃ r ∈ buildVisibleList fixS [] false "b" OrderBy.scan [] CostMetric.total 3 3,
        r.node = x) ∧
    (∀ r ∈ buildVisibleList fixS [] false "b" OrderBy.scan [] CostMetric.total 3 3,
      ∃ bs t, ChainTo fixS.nodes r.node bs t ∧ matchesSearch (queryOf "b") t = true) :=
  c8_search_force_reveals fixS [] false "b" OrderBy.scan [] CostMetric.total 3 3
    fixSRoot fixSAB [fixSA, fixSAB] (by decide) (by decide)
    (ChainTo.step "a" fixSA (by decide) (by decide)
      (ChainTo.step "a/b" fixSAB (by decide) (by decide) (ChainTo.refl fixSAB)))
    (List.cons_ne_nil _ _) (by decide) (by decide) (by decide)

end StScan
